import Mathlib

set_option linter.unusedSectionVars false
set_option linter.unnecessarySeqFocus false

/-!
Verification development for the comp-utils repository.

The repository provides small helpers for computational puzzles: a
disjoint-set (union-find) subsystem in two variants (a static one over a
fixed universe of elements and a dynamic one that auto-registers unseen
elements), a dense `Grid` and a sparse `ComplexGrid` abstraction, and
file-parsing helpers.

The union-find state is embedded as association lists mirroring Python
dicts (insertion order, update-in-place for present keys, append for new
keys).  The implementation module `cp_utils/dsu.py` itself is not present
in the source tree (only its tests and the specification describe it), so
the union-find operations below are modelled from the specification text;
the grid and file helpers are translated directly from
`src/cp_utils/grids.py` and `src/cp_utils/files.py`.
-/

namespace CompUtils

section AssocList

variable {α : Type} {β : Type} [DecidableEq α]

/-- Lookup in an association list, mirroring `dict.get`: the first entry
with the given key wins (keys are kept unique by `aset`). -/
def alookup : List (α × β) → α → Option β
  | [], _ => none
  | (k, v) :: rest, a => if a = k then some v else alookup rest a

/-- Update-or-append, mirroring `d[k] = v` on a Python dict: if the key is
present its value is replaced in place, otherwise the pair is appended. -/
def aset : List (α × β) → α → β → List (α × β)
  | [], k, v => [(k, v)]
  | (k', v') :: rest, k, v =>
      if k = k' then (k, v) :: rest else (k', v') :: aset rest k v

/-- The keys of an association list, in order. -/
def akeys (l : List (α × β)) : List α := l.map Prod.fst

end AssocList


/-! ### Union-find state

Modelled from the spec: `cp_utils/dsu.py` is absent from the source tree;
the spec describes the shared state as two maps, `parent` (element →
element, `parent[x] == x` iff `x` is a root) and `rank` (element →
non-negative integer), with registration giving each new element a
self-parent and rank 0. -/

structure UF (α : Type) where
  parent : List (α × α)
  rank : List (α × Nat)

namespace UF

variable {α : Type} [DecidableEq α]

/-- Parent pointer read on a bare parent map; unregistered elements read
back as themselves (the variants guard registration before any access, so
this default is never observable through the public operations). -/
def pget (p : List (α × α)) (x : α) : α := (alookup p x).getD x

/-- A root is an element whose parent pointer is a self-loop. -/
def isRootP (p : List (α × α)) (x : α) : Prop := pget p x = x

instance (p : List (α × α)) (x : α) : Decidable (isRootP p x) := by
  unfold isRootP; infer_instance

/-- Fuel-bounded walk up the parent chain; with fuel at least the number
of registered elements this reaches the root of any registered element. -/
def rootAux (p : List (α × α)) : Nat → α → α
  | 0, x => x
  | fuel + 1, x =>
      let px := pget p x
      if px = x then x else rootAux p fuel px

/-- The nodes strictly before the root on the walk from `x` (the nodes the
`find` traversal visits and later repoints). -/
def pathAux (p : List (α × α)) : Nat → α → List α
  | 0, _ => []
  | fuel + 1, x =>
      let px := pget p x
      if px = x then [] else x :: pathAux p fuel px

/-- The root of the set containing `x`, computed on the raw parent map. -/
def rootP (p : List (α × α)) (x : α) : α := rootAux p p.length x

/-- `x` and `r` witness the "walk reaches a root" relation. -/
def RootOfP (p : List (α × α)) (x r : α) : Prop :=
  isRootP p r ∧ ∃ j : Nat, (pget p)^[j] x = r

/-- Structural invariant of the parent map: keys are unique, parent
pointers stay inside the key set, and the fuel-bounded walk reaches a
root from every registered element. -/
def InvP (p : List (α × α)) : Prop :=
  (akeys p).Nodup ∧ (∀ x ∈ akeys p, pget p x ∈ akeys p) ∧
    ∀ x ∈ akeys p, isRootP p (rootAux p p.length x)

instance (p : List (α × α)) : Decidable (InvP p) := by
  unfold InvP; infer_instance

/-- Number of registered elements (`len(parent)` in the source). -/
def size (s : UF α) : Nat := s.parent.length

/-- The registered elements. -/
def keys (s : UF α) : List α := akeys s.parent

/-- Rank read with the Python `dict.get(x, 0)` default. -/
def rankD (s : UF α) (x : α) : Nat := (alookup s.rank x).getD 0

/-- The invariant lifted to the full state. -/
def Inv (s : UF α) : Prop := InvP s.parent

instance (s : UF α) : Decidable (Inv s) := by
  unfold Inv; infer_instance

/-- The root of the set containing `x`. -/
def rootOf (s : UF α) (x : α) : α := rootP s.parent x

/-- Modelled from the spec: registration makes an element "begin to exist
as a singleton set" — a self-parent entry and a rank-0 entry; an already
registered element is left untouched. -/
def register (s : UF α) (x : α) : UF α :=
  if (alookup s.parent x).isSome then s
  else { parent := s.parent ++ [(x, x)], rank := s.rank ++ [(x, 0)] }

/-- Repoint a single parent entry. -/
def setParent (s : UF α) (v r : α) : UF α :=
  { s with parent := aset s.parent v r }

/-- Repoint every visited node directly to the discovered root (full path
compression, modelled from the spec's "repoint every visited node's parent
directly to that root"). -/
def compressP (p : List (α × α)) (vs : List α) (r : α) : List (α × α) :=
  vs.foldl (fun q v => aset q v r) p

/-- Modelled from the spec: `find` walks parent pointers from `x` to the
root and, as a side effect, repoints every visited node to that root. -/
def findOp (s : UF α) (x : α) : α × UF α :=
  let r := rootOf s x
  (r, { s with parent := compressP s.parent (pathAux s.parent (size s) x) r })

/-- Root attachment step of `union` on two already-found roots: if equal,
a no-op returning `false`; otherwise the lower-rank root is attached under
the higher-rank root, a tie attaching the second under the first and
incrementing the surviving root's rank. -/
def linkRoots (s2 : UF α) (rx ry : α) : Bool × UF α :=
  if rx = ry then (false, s2)
  else if rankD s2 rx < rankD s2 ry then (true, setParent s2 rx ry)
  else if rankD s2 ry < rankD s2 rx then (true, setParent s2 ry rx)
  else (true, { parent := aset s2.parent ry rx,
                rank := aset s2.rank rx (rankD s2 rx + 1) })

/-- Modelled from the spec: `union` finds both roots (compressing along
the way) and then performs the rank-guided attachment. -/
def unionRoots (s : UF α) (x y : α) : Bool × UF α :=
  linkRoots (findOp (findOp s x).2 y).2 (findOp s x).1 (findOp (findOp s x).2 y).1

/-- Modelled from the spec: `connected(x, y)` is `find(x) == find(y)`. -/
def connectedRoots (s : UF α) (x y : α) : Bool × UF α :=
  let fx := findOp s x
  let fy := findOp fx.2 y
  (decide (fx.1 = fy.1), fy.2)

/-- Modelled from the spec: `clear` empties both maps entirely. -/
def clear (_s : UF α) : UF α := ⟨[], []⟩

/-- Modelled from the spec: `get_components()` maps each current root to
the set of all registered elements whose `find` resolves to that root. -/
def get_components (s : UF α) : List (α × List α) :=
  ((keys s).map (rootOf s)).dedup.map
    (fun r => (r, (keys s).filter (fun x => decide (rootOf s x = r))))

/-- Alias for `get_components` (spec: "Alias name `get_sets()` denotes the
identical operation"). -/
def get_sets (s : UF α) : List (α × List α) := get_components s

/-- Modelled from the spec: each root mapped to the cardinality of its
component. -/
def get_component_sizes (s : UF α) : List (α × Nat) :=
  (get_components s).map (fun pr => (pr.1, pr.2.length))

/-- Alias for `get_component_sizes`. -/
def get_set_sizes (s : UF α) : List (α × Nat) := get_component_sizes s

end UF

/-! ### The static variant (`UnionFind` in the tests)

Modelled from the spec §4.2: constructed from an explicit collection of
elements; any `find`/`union`/`connected` call referencing an element
absent from that collection fails with a lookup error (here `none`), the
state untouched; it never auto-registers. -/

namespace UnionFind

variable {α : Type} [DecidableEq α]

/-- Modelled from the spec: construction registers each element of the
given collection once as its own singleton. -/
def ofData (elems : List α) : UF α := elems.foldl UF.register ⟨[], []⟩

/-- Static `find`: a lookup error (`none`) on any unregistered element,
leaving the state unchanged; otherwise the shared find-with-compression. -/
def find (s : UF α) (x : α) : Option α × UF α :=
  if x ∈ UF.keys s then
    let f := UF.findOp s x
    (some f.1, f.2)
  else (none, s)

/-- Static `union`: a lookup error (`none`) if either element is
unregistered, leaving the state unchanged. -/
def union (s : UF α) (x y : α) : Option Bool × UF α :=
  if x ∈ UF.keys s ∧ y ∈ UF.keys s then
    let u := UF.unionRoots s x y
    (some u.1, u.2)
  else (none, s)

/-- Static `connected`: a lookup error (`none`) if either element is
unregistered, leaving the state unchanged. -/
def connected (s : UF α) (x y : α) : Option Bool × UF α :=
  if x ∈ UF.keys s ∧ y ∈ UF.keys s then
    let c := UF.connectedRoots s x y
    (some c.1, c.2)
  else (none, s)

end UnionFind

/-! ### The dynamic variant (`DynamicUnionFind` in the tests)

Modelled from the spec §4.3: any call referencing an unseen element
transparently registers it as a new singleton set before proceeding;
construction may seed from an initial collection of pairwise relations,
each pair immediately unioned. -/

namespace DynamicUnionFind

variable {α : Type} [DecidableEq α]

/-- Dynamic `find`: auto-register, then the shared find. -/
def find (s : UF α) (x : α) : α × UF α := UF.findOp (UF.register s x) x

/-- Dynamic `union`: auto-register both sides, then the shared union. -/
def union (s : UF α) (x y : α) : Bool × UF α :=
  UF.unionRoots (UF.register (UF.register s x) y) x y

/-- Dynamic `connected`: auto-register both sides, then compare roots. -/
def connected (s : UF α) (x y : α) : Bool × UF α :=
  UF.connectedRoots (UF.register (UF.register s x) y) x y

/-- Modelled from the spec: seeded construction unions each given pair in
order, starting from the empty structure. -/
def ofData (rel : List (α × α)) : UF α :=
  rel.foldl (fun s pr => (union s pr.1 pr.2).2) ⟨[], []⟩

end DynamicUnionFind

/-- Reachable states of either variant: both constructions and closure
under every public mutating operation. -/
inductive Reachable {α : Type} [DecidableEq α] : UF α → Prop where
  | staticInit (elems : List α) : Reachable (UnionFind.ofData elems)
  | emptyInit : Reachable ⟨[], []⟩
  | dynInit (rel : List (α × α)) : Reachable (DynamicUnionFind.ofData rel)
  | staticFind (s : UF α) (x : α) : Reachable s → Reachable (UnionFind.find s x).2
  | staticUnion (s : UF α) (x y : α) : Reachable s → Reachable (UnionFind.union s x y).2
  | staticConnected (s : UF α) (x y : α) : Reachable s → Reachable (UnionFind.connected s x y).2
  | dynFind (s : UF α) (x : α) : Reachable s → Reachable (DynamicUnionFind.find s x).2
  | dynUnion (s : UF α) (x y : α) : Reachable s → Reachable (DynamicUnionFind.union s x y).2
  | dynConnected (s : UF α) (x y : α) : Reachable s → Reachable (DynamicUnionFind.connected s x y).2
  | clearStep (s : UF α) : Reachable s → Reachable (UF.clear s)

/-! ### Embedding of `src/cp_utils/grids.py` (`ComplexGrid`)

Cell values carry Python truthiness; grid keys are the `complex(x, y)`
points with integer coordinates that `parse` produces, represented as
integer pairs.  Raising an exception is modelled as returning `none`. -/

namespace PyGrids

/-- Python values stored in a `ComplexGrid` cell. -/
inductive PyVal : Type
  | vint : Int → PyVal
  | vstr : String → PyVal
  | vbool : Bool → PyVal
  | vnone : PyVal
deriving DecidableEq

/-- Python truthiness of a cell value (`None`, `0`, `""` and `False` are
falsy). -/
def truthy : PyVal → Bool
  | .vint n => decide (n ≠ 0)
  | .vstr s => decide (s ≠ "")
  | .vbool b => b
  | .vnone => false

/-- Sparse grid: dictionary from complex points to cell values. -/
structure ComplexGrid where
  data : List ((Int × Int) × PyVal)
deriving DecidableEq

/-- Translation of `ComplexGrid.__getitem__`: `self._data.get(key, None)`. -/
def getitem (g : ComplexGrid) (k : Int × Int) : PyVal :=
  (alookup g.data k).getD .vnone

/-- Translation of `ComplexGrid.__setitem__`: `if not
self._data.get(key, None): raise KeyError(...)`, else store the value.
The `KeyError` is modelled as `none`. -/
def setitem (g : ComplexGrid) (k : Int × Int) (v : PyVal) : Option ComplexGrid :=
  if truthy ((alookup g.data k).getD .vnone) then some ⟨aset g.data k v⟩
  else none

/-- Python objects relevant to the parse comprehension: the complex keys
of the parsed dict, plain strings, and pairs — the only shape that the
unpacking `k, v = obj` accepts. -/
inductive PyObj : Type
  | cplx : Int → Int → PyObj
  | str : String → PyObj
  | tup : PyObj → PyObj → PyObj
deriving DecidableEq

/-- Tuple unpacking `k, v = obj`: succeeds only on a pair; a complex
number is not iterable, so unpacking it raises `TypeError` (`none`). -/
def iter2 : PyObj → Option (PyObj × PyObj)
  | .tup a b => some (a, b)
  | _ => none

/-- Python `str.strip` on a character list: whitespace removed from both
ends. -/
def pyStripList (cs : List Char) : List Char :=
  ((cs.dropWhile Char.isWhitespace).reverse.dropWhile Char.isWhitespace).reverse

/-- Python `str.strip`. -/
def pyStrip (s : String) : String := String.mk (pyStripList s.toList)

/-- Splitter for `str.splitlines` on stripped input: pieces between
newline characters.  The accumulator holds the current piece reversed. -/
def splitlinesAux : List Char → List Char → List (List Char)
  | [], acc => [acc.reverse]
  | c :: rest, acc =>
      if c = '\n' then acc.reverse :: splitlinesAux rest []
      else splitlinesAux rest (c :: acc)

/-- Python `str.splitlines` as used here (on already-stripped input): the
empty string has no lines; otherwise lines are the newline-separated
pieces. -/
def pySplitlines (s : String) : List String :=
  if s = "" then []
  else (splitlinesAux s.toList []).map (fun cs => String.mk cs)

/-- Splitter for `str.split(sep)` with a non-empty separator: scans left
to right, breaking at each non-overlapping occurrence of the separator.
The fuel is the input length (each step consumes at least one
character). -/
def splitSepAux (delim : List Char) : Nat → List Char → List Char → List (List Char)
  | _, [], acc => [acc.reverse]
  | 0, cs, acc => [acc.reverse ++ cs]
  | fuel + 1, c :: rest, acc =>
      if delim.isPrefixOf (c :: rest) then
        acc.reverse :: splitSepAux delim fuel ((c :: rest).drop delim.length) []
      else splitSepAux delim fuel rest (c :: acc)

/-- Python `str.split(sep)` (an empty separator, on which Python raises
`ValueError`, is treated as no split). -/
def pySplit (s delim : String) : List String :=
  if delim = "" then [s]
  else (splitSepAux delim.toList s.toList.length s.toList []).map
    (fun cs => String.mk cs)

/-- The cells produced by the parsing loop of `ComplexGrid.parse` and
`ComplexGrid.parse_file`: `complex(x, y) ↦ cell` for the `y`-th
delimiter-separated field of the stripped `x`-th line of the stripped
input. -/
def cellsOf (grid delim : String) : List ((Int × Int) × String) :=
  (pySplitlines (pyStrip grid)).enum.bind (fun xr =>
    ((pySplit (pyStrip xr.2) delim).enum.map
      (fun yc => ((Int.ofNat xr.1, Int.ofNat yc.1), yc.2))))

/-- The keys of the parsed dict `res`, i.e. the items the comprehension
`for k, v in res` iterates over (iterating a dict yields its keys). -/
def resKeys (grid delim : String) : List PyObj :=
  (cellsOf grid delim).map (fun c => PyObj.cplx c.1.1 c.1.2)

/-- Translation of `ComplexGrid.parse`: without a converter the parsed
string grid is returned; with one, `{k: converter(v) for k, v in res}`
iterates the keys of `res` and unpacks each, which raises `TypeError`
(modelled as `none`) on the first complex key. -/
def parse {β : Type} (grid delim : String) (conv : Option (PyObj → β)) :
    Option (List ((Int × Int) × String) ⊕ List (PyObj × β)) :=
  match conv with
  | none => some (.inl (cellsOf grid delim))
  | some f =>
      ((resKeys grid delim).mapM
        (fun k => (iter2 k).map (fun kv => (kv.1, f kv.2)))).map .inr

/-- Translation of `ComplexGrid.parse_file` applied to the contents of
the file: the file is read to a string and processed exactly as `parse`
processes its argument. -/
def parse_file {β : Type} (contents delim : String)
    (conv : Option (PyObj → β)) :
    Option (List ((Int × Int) × String) ⊕ List (PyObj × β)) :=
  parse contents delim conv

end PyGrids

/-! ### Embedding of `src/cp_utils/files.py` (`Files`) -/

namespace PyFiles

/-- Maximal runs of decimal digits in a character stream — the semantics
of `re.findall(r"\d+", content)`.  The accumulator holds the digits of
the current run in reverse. -/
def digitRunsAux : List Char → List Char → List (List Char)
  | [], acc => if acc.isEmpty then [] else [acc.reverse]
  | c :: rest, acc =>
      if c.isDigit then digitRunsAux rest (c :: acc)
      else if acc.isEmpty then digitRunsAux rest []
      else acc.reverse :: digitRunsAux rest []

/-- Numeric value of a digit run (`int` applied to a digits-only
string). -/
def natOfDigits (cs : List Char) : Nat :=
  cs.foldl (fun n c => 10 * n + (c.toNat - 48)) 0

/-- Translation of `Files.extract_ints` applied to the contents of the
file: `list(map(int, re.findall(r"\d+", content)))`. -/
def extract_ints (content : String) : List Int :=
  (digitRunsAux content.toList []).map (fun cs => (natOfDigits cs : Int))

end PyFiles

/-! ### Association-list lemmas -/

section AssocListLemmas

variable {α : Type} {β : Type} [DecidableEq α]

theorem akeys_cons {k : α} {v : β} {rest : List (α × β)} :
    akeys ((k, v) :: rest) = k :: akeys rest := rfl

theorem alookup_eq_none_iff {l : List (α × β)} {k : α} :
    alookup l k = none ↔ k ∉ akeys l := by
  induction l with
  | nil => simp [alookup, akeys]
  | cons p rest ih =>
      obtain ⟨k', v'⟩ := p
      by_cases h : k = k' <;> simp [alookup, akeys, h] at ih ⊢ <;> simp [ih]

theorem alookup_isSome_iff {l : List (α × β)} {k : α} :
    (alookup l k).isSome ↔ k ∈ akeys l := by
  rw [Option.isSome_iff_ne_none]
  exact not_iff_comm.mp alookup_eq_none_iff.symm

theorem mem_akeys_of_alookup {l : List (α × β)} {k : α} {v : β}
    (h : alookup l k = some v) : k ∈ akeys l := by
  have : (alookup l k).isSome := by simp [h]
  exact alookup_isSome_iff.mp this

theorem alookup_aset_self {l : List (α × β)} {k : α} {v : β} :
    alookup (aset l k v) k = some v := by
  induction l with
  | nil => simp [aset, alookup]
  | cons p rest ih =>
      obtain ⟨k', v'⟩ := p
      by_cases h : k = k' <;> simp [aset, alookup, h, ih]

theorem alookup_aset_of_ne {l : List (α × β)} {k k' : α} {v : β}
    (h : k' ≠ k) : alookup (aset l k v) k' = alookup l k' := by
  induction l with
  | nil => simp [aset, alookup, h]
  | cons p rest ih =>
      obtain ⟨k₀, v₀⟩ := p
      by_cases hk : k = k₀
      · subst hk; simp [aset, alookup, h]
      · by_cases hk' : k' = k₀ <;> simp [aset, alookup, hk, hk', ih]

theorem akeys_aset_of_mem {l : List (α × β)} {k : α} {v : β}
    (h : k ∈ akeys l) : akeys (aset l k v) = akeys l := by
  induction l with
  | nil => simp [akeys] at h
  | cons p rest ih =>
      obtain ⟨k₀, v₀⟩ := p
      by_cases hk : k = k₀
      · subst hk; simp [aset, akeys]
      · rw [akeys_cons, List.mem_cons] at h
        rcases h with h | h
        · exact absurd h hk
        · simp only [aset, if_neg hk, akeys_cons, ih h]

theorem mem_akeys_aset {l : List (α × β)} {k k' : α} {v : β}
    (h : k' ∈ akeys l) : k' ∈ akeys (aset l k v) := by
  induction l with
  | nil => simp [akeys] at h
  | cons p rest ih =>
      obtain ⟨k₀, v₀⟩ := p
      rw [akeys_cons, List.mem_cons] at h
      by_cases hk : k = k₀
      · simp only [aset, if_pos hk, akeys_cons, List.mem_cons]
        rcases h with h | h
        · exact Or.inl (h.trans hk.symm)
        · exact Or.inr h
      · simp only [aset, if_neg hk, akeys_cons, List.mem_cons]
        rcases h with h | h
        · exact Or.inl h
        · exact Or.inr (ih h)

theorem akeys_aset_nodup {l : List (α × β)} {k : α} {v : β}
    (h : (akeys l).Nodup) : (akeys (aset l k v)).Nodup := by
  induction l with
  | nil => simp [aset, akeys]
  | cons p rest ih =>
      obtain ⟨k₀, v₀⟩ := p
      rw [akeys_cons, List.nodup_cons] at h
      by_cases hk : k = k₀
      · simp only [aset, if_pos hk, akeys_cons, List.nodup_cons]
        exact ⟨by rw [hk]; exact h.1, h.2⟩
      · simp only [aset, if_neg hk, akeys_cons, List.nodup_cons]
        refine ⟨fun hmem => ?_, ih h.2⟩
        have hne : k₀ ≠ k := fun hh => hk hh.symm
        have h3 : (alookup (aset rest k v) k₀).isSome :=
          alookup_isSome_iff.mpr hmem
        rw [alookup_aset_of_ne hne] at h3
        exact h.1 (alookup_isSome_iff.mp h3)

theorem length_aset_of_mem {l : List (α × β)} {k : α} {v : β}
    (h : k ∈ akeys l) : (aset l k v).length = l.length := by
  induction l with
  | nil => simp [akeys] at h
  | cons p rest ih =>
      obtain ⟨k₀, v₀⟩ := p
      by_cases hk : k = k₀
      · simp [aset, hk]
      · rw [akeys_cons, List.mem_cons] at h
        rcases h with h | h
        · exact absurd h hk
        · simp only [aset, if_neg hk, List.length_cons, ih h]

theorem alookup_append_left {l₁ l₂ : List (α × β)} {k : α} {v : β}
    (h : alookup l₁ k = some v) : alookup (l₁ ++ l₂) k = some v := by
  induction l₁ with
  | nil => simp [alookup] at h
  | cons p rest ih =>
      obtain ⟨k₀, v₀⟩ := p
      by_cases hk : k = k₀ <;> simp [alookup, hk] at h ⊢ <;> simp_all

theorem alookup_append_right {l₁ l₂ : List (α × β)} {k : α}
    (h : alookup l₁ k = none) : alookup (l₁ ++ l₂) k = alookup l₂ k := by
  induction l₁ with
  | nil => simp [alookup]
  | cons p rest ih =>
      obtain ⟨k₀, v₀⟩ := p
      by_cases hk : k = k₀ <;> simp [alookup, hk] at h ⊢ <;> simp_all

theorem akeys_append {l₁ l₂ : List (α × β)} :
    akeys (l₁ ++ l₂) = akeys l₁ ++ akeys l₂ := by
  simp [akeys]

end AssocListLemmas

/-! ### Lemmas on the union-find core -/

namespace UF

variable {α : Type} [DecidableEq α]

/-! #### Chain lemmas on raw parent maps -/

theorem pget_aset {p : List (α × α)} {v r z : α} :
    pget (aset p v r) z = if z = v then r else pget p z := by
  unfold pget
  by_cases h : z = v
  · subst h; rw [alookup_aset_self]; simp
  · rw [alookup_aset_of_ne h, if_neg h]

theorem isRootP_iterate {p : List (α × α)} {r : α} (h : isRootP p r) :
    ∀ k, (pget p)^[k] r = r
  | 0 => rfl
  | k + 1 => by
      rw [Function.iterate_succ_apply, show pget p r = r from h]
      exact isRootP_iterate h k

theorem rootAux_of_isRoot {p : List (α × α)} {x : α} (h : isRootP p x) :
    ∀ k, rootAux p k x = x
  | 0 => rfl
  | k + 1 => by simp [rootAux, show pget p x = x from h]

theorem rootAux_succ {p : List (α × α)} (k : Nat) (x : α) :
    rootAux p (k + 1) x = rootAux p k (pget p x) := by
  by_cases h : pget p x = x
  · rw [show rootAux p (k + 1) x = x by simp [rootAux, h], h,
      rootAux_of_isRoot h k]
  · simp [rootAux, h]

theorem rootAux_eq_iterate {p : List (α × α)} :
    ∀ (k : Nat) (x : α), ∃ j, j ≤ k ∧ rootAux p k x = (pget p)^[j] x
  | 0, _ => ⟨0, Nat.le_refl 0, rfl⟩
  | k + 1, x => by
      by_cases h : pget p x = x
      · exact ⟨0, Nat.zero_le _, by simp [rootAux, h]⟩
      · obtain ⟨j, hj, he⟩ := rootAux_eq_iterate k (pget p x)
        refine ⟨j + 1, Nat.succ_le_succ hj, ?_⟩
        rw [rootAux_succ, he, Function.iterate_succ_apply]

theorem isRoot_rootAux_of_bounded {p : List (α × α)} :
    ∀ (k : Nat) (x : α), (∃ j, j ≤ k ∧ isRootP p ((pget p)^[j] x)) →
      isRootP p (rootAux p k x)
  | 0, x, ⟨j, hj, hr⟩ => by
      have hj0 : j = 0 := Nat.le_zero.mp hj
      subst hj0; exact hr
  | k + 1, x, ⟨j, hj, hr⟩ => by
      by_cases h : pget p x = x
      · rw [show rootAux p (k + 1) x = x by simp [rootAux, h]]; exact h
      · have hj0 : j ≠ 0 := by
          rintro rfl; exact h hr
        obtain ⟨j', rfl⟩ := Nat.exists_eq_succ_of_ne_zero hj0
        rw [Function.iterate_succ_apply] at hr
        rw [rootAux_succ]
        exact isRoot_rootAux_of_bounded k (pget p x)
          ⟨j', Nat.le_of_succ_le_succ hj, hr⟩

theorem rootOfP_unique {p : List (α × α)} {x r r' : α}
    (h1 : RootOfP p x r) (h2 : RootOfP p x r') : r = r' := by
  obtain ⟨hr1, j1, he1⟩ := h1
  obtain ⟨hr2, j2, he2⟩ := h2
  have key : ∀ (a b : Nat) (ra rb : α), a ≤ b → isRootP p ra → isRootP p rb →
      (pget p)^[a] x = ra → (pget p)^[b] x = rb → ra = rb := by
    intro a b ra rb hab hra hrb hea heb
    have h1 : (pget p)^[b] x = (pget p)^[b - a] ((pget p)^[a] x) := by
      rw [← Function.iterate_add_apply, Nat.sub_add_cancel hab]
    rw [hea, isRootP_iterate hra] at h1
    rw [heb] at h1
    exact h1.symm
  rcases Nat.le_total j1 j2 with h | h
  · exact key j1 j2 r r' h hr1 hr2 he1 he2
  · exact (key j2 j1 r' r h hr2 hr1 he2 he1).symm

theorem iterate_mem_of_closed {p : List (α × α)}
    (hcl : ∀ x ∈ akeys p, pget p x ∈ akeys p) {x : α} (hx : x ∈ akeys p) :
    ∀ j, (pget p)^[j] x ∈ akeys p
  | 0 => hx
  | j + 1 => by
      rw [Function.iterate_succ_apply]
      exact iterate_mem_of_closed hcl (hcl x hx) j

theorem iterate_periodic {f : α → α} {x : α} {i j : Nat} (hij : i ≤ j)
    (h : f^[i] x = f^[j] x) : ∀ m, i ≤ m → f^[m + (j - i)] x = f^[m] x := by
  intro m hm
  obtain ⟨t, rfl⟩ := Nat.exists_eq_add_of_le hm
  have e1 : i + t + (j - i) = t + j := by omega
  have e2 : i + t = t + i := by omega
  rw [e1, Function.iterate_add_apply, ← h, ← Function.iterate_add_apply, e2]

theorem exists_bounded_root {p : List (α × α)} (hnd : (akeys p).Nodup)
    (hcl : ∀ x ∈ akeys p, pget p x ∈ akeys p) {x : α} (hx : x ∈ akeys p)
    (h : ∃ j, isRootP p ((pget p)^[j] x)) :
    ∃ j, j ≤ p.length ∧ isRootP p ((pget p)^[j] x) := by
  by_cases hle : Nat.find h ≤ p.length
  · exact ⟨Nat.find h, hle, Nat.find_spec h⟩
  · exfalso
    push_neg at hle
    have hcard : (akeys p).toFinset.card = p.length := by
      rw [List.toFinset_card_of_nodup hnd]; simp [akeys]
    have hmaps : ∀ i ∈ Finset.range (p.length + 1),
        (pget p)^[i] x ∈ (akeys p).toFinset := by
      intro i _
      exact List.mem_toFinset.mpr (iterate_mem_of_closed hcl hx i)
    obtain ⟨i, hi, j, hj, hne, heq⟩ :=
      Finset.exists_ne_map_eq_of_card_lt_of_maps_to
        (by simp [hcard]) hmaps
    rw [Finset.mem_range] at hi hj
    rcases Nat.lt_or_ge i j with hij | hij
    · have hper := iterate_periodic (Nat.le_of_lt hij) heq
      have harith : (Nat.find h - (j - i)) + (j - i) = Nat.find h := by omega
      have hroot := Nat.find_spec h
      have : isRootP p ((pget p)^[Nat.find h - (j - i)] x) := by
        have hpe := hper (Nat.find h - (j - i)) (by omega)
        rw [harith] at hpe
        rw [← hpe]; exact hroot
      exact Nat.find_min h (by omega) this
    · have hji : j < i := by omega
      have hper := iterate_periodic (Nat.le_of_lt hji) heq.symm
      have harith : (Nat.find h - (i - j)) + (i - j) = Nat.find h := by omega
      have hroot := Nat.find_spec h
      have : isRootP p ((pget p)^[Nat.find h - (i - j)] x) := by
        have hpe := hper (Nat.find h - (i - j)) (by omega)
        rw [harith] at hpe
        rw [← hpe]; exact hroot
      exact Nat.find_min h (by omega) this

theorem rootOfP_rootP {p : List (α × α)} (hInv : InvP p) {x : α}
    (hx : x ∈ akeys p) : RootOfP p x (rootP p x) := by
  obtain ⟨hnd, hcl, hch⟩ := hInv
  have hroot : isRootP p (rootAux p p.length x) := hch x hx
  obtain ⟨j, hj, he⟩ := rootAux_eq_iterate (p := p) p.length x
  exact ⟨by rw [rootP]; exact hroot, j, by rw [← he]; rfl⟩

theorem rootP_eq_of_rootOfP {p : List (α × α)} (hInv : InvP p) {x r : α}
    (hx : x ∈ akeys p) (h : RootOfP p x r) : rootP p x = r :=
  rootOfP_unique (rootOfP_rootP hInv hx) h

theorem isRootP_rootP {p : List (α × α)} (hInv : InvP p) {x : α}
    (hx : x ∈ akeys p) : isRootP p (rootP p x) :=
  (rootOfP_rootP hInv hx).1

theorem rootP_of_isRoot {p : List (α × α)} {x : α} (h : isRootP p x) :
    rootP p x = x :=
  rootAux_of_isRoot h _

theorem rootP_mem {p : List (α × α)} (hInv : InvP p) {x : α}
    (hx : x ∈ akeys p) : rootP p x ∈ akeys p := by
  obtain ⟨_, j, he⟩ := rootOfP_rootP hInv hx
  rw [← he]
  exact iterate_mem_of_closed hInv.2.1 hx j

theorem rootOfP_of_isRoot {p : List (α × α)} {x : α} (h : isRootP p x) :
    RootOfP p x x :=
  ⟨h, 0, rfl⟩

theorem pathAux_spec {p : List (α × α)}
    (hcl : ∀ x ∈ akeys p, pget p x ∈ akeys p) :
    ∀ (k : Nat) (x : α), x ∈ akeys p →
      (∃ j, j ≤ k ∧ isRootP p ((pget p)^[j] x)) →
      ∀ v ∈ pathAux p k x, v ∈ akeys p ∧ RootOfP p v (rootAux p k x)
  | 0, x, _, _, v, hv => by simp [pathAux] at hv
  | k + 1, x, hx, hb, v, hv => by
      by_cases h : pget p x = x
      · simp [pathAux, h] at hv
      · rw [show pathAux p (k + 1) x = x :: pathAux p k (pget p x) by
          simp [pathAux, h]] at hv
        obtain ⟨j, hj, hr⟩ := hb
        have hj0 : j ≠ 0 := by rintro rfl; exact h hr
        obtain ⟨j', rfl⟩ := Nat.exists_eq_succ_of_ne_zero hj0
        rw [Function.iterate_succ_apply] at hr
        have hb' : ∃ j, j ≤ k ∧ isRootP p ((pget p)^[j] (pget p x)) :=
          ⟨j', Nat.le_of_succ_le_succ hj, hr⟩
        rcases List.mem_cons.mp hv with rfl | hv'
        · refine ⟨hx, isRoot_rootAux_of_bounded (k + 1) v
            ⟨j' + 1, hj, by rw [Function.iterate_succ_apply]; exact hr⟩, ?_⟩
          obtain ⟨i, _, he⟩ := rootAux_eq_iterate (p := p) (k + 1) v
          exact ⟨i, he.symm⟩
        · rw [rootAux_succ]
          exact pathAux_spec hcl k (pget p x) (hcl x hx) hb' v hv'

/-! #### Repointing a single parent entry

`aset p v w` covers both mutations the algorithm performs: path
compression (`w` is the root of `v`) and root attachment during union
(`v` and `w` are distinct roots). -/

theorem setParent_chain {p : List (α × α)} {v w rv : α}
    (hwr : isRootP p w) (hrv : RootOfP p v rv)
    (hcase : rv = w ∨ (rv = v ∧ v ≠ w)) :
    ∀ z r, RootOfP p z r → RootOfP (aset p v w) z (if r = rv then w else r) := by
  have hvroot : isRootP p v → rv = v := fun h =>
    rootOfP_unique hrv (rootOfP_of_isRoot h)
  have hqw : isRootP (aset p v w) w := by
    unfold isRootP
    rw [pget_aset]
    by_cases hwv : w = v
    · rw [if_pos hwv]
    · rw [if_neg hwv]; exact hwr
  have hqv : RootOfP (aset p v w) v w :=
    ⟨hqw, 1, by rw [Function.iterate_one, pget_aset, if_pos rfl]⟩
  intro z r hzr
  obtain ⟨hr, j, hj⟩ := hzr
  induction j generalizing z with
  | zero =>
      simp only [Function.iterate_zero, id] at hj
      subst hj
      by_cases hzv : z = v
      · subst hzv
        have hrveq : rv = z := hvroot hr
        rw [if_pos hrveq.symm]
        exact hqv
      · by_cases hrrv : z = rv
        · rw [if_pos hrrv]
          rcases hcase with h | h
          · rw [hrrv, h]; exact ⟨hqw, 0, rfl⟩
          · exact absurd (hrrv.trans h.1) hzv
        · rw [if_neg hrrv]
          refine ⟨?_, 0, rfl⟩
          unfold isRootP
          rw [pget_aset, if_neg hzv]
          exact hr
  | succ j ih =>
      by_cases hzv : z = v
      · subst hzv
        have hreq : r = rv := rootOfP_unique ⟨hr, j + 1, hj⟩ hrv
        rw [if_pos hreq]
        exact hqv
      · rw [Function.iterate_succ_apply] at hj
        obtain ⟨hT, m, hm⟩ := ih (pget p z) hj
        refine ⟨hT, m + 1, ?_⟩
        rw [Function.iterate_succ_apply, pget_aset, if_neg hzv]
        exact hm

theorem setParent_spec {p : List (α × α)} {v w rv : α}
    (hInv : InvP p) (hv : v ∈ akeys p) (hw : w ∈ akeys p)
    (hwr : isRootP p w) (hrv : RootOfP p v rv)
    (hcase : rv = w ∨ (rv = v ∧ v ≠ w)) :
    akeys (aset p v w) = akeys p ∧ (aset p v w).length = p.length ∧
      InvP (aset p v w) ∧
      ∀ z ∈ akeys p, rootP (aset p v w) z =
        if rootP p z = rv then w else rootP p z := by
  have hkeys : akeys (aset p v w) = akeys p := akeys_aset_of_mem hv
  have hlen : (aset p v w).length = p.length := length_aset_of_mem hv
  have hchain := setParent_chain hwr hrv hcase
  have hcl' : ∀ z ∈ akeys (aset p v w), pget (aset p v w) z ∈ akeys (aset p v w) := by
    intro z hz
    rw [hkeys] at hz ⊢
    rw [pget_aset]
    by_cases hzv : z = v
    · rw [if_pos hzv]; exact hw
    · rw [if_neg hzv]; exact hInv.2.1 z hz
  have hnd' : (akeys (aset p v w)).Nodup := by rw [hkeys]; exact hInv.1
  have hch' : ∀ z ∈ akeys (aset p v w),
      isRootP (aset p v w) (rootAux (aset p v w) (aset p v w).length z) := by
    intro z hz
    rw [hkeys] at hz
    have h1 := hchain z (rootP p z) (rootOfP_rootP hInv hz)
    obtain ⟨hT, m, hm⟩ := h1
    have hb := exists_bounded_root hnd' hcl' (by rw [hkeys]; exact hz)
      ⟨m, by rw [hm]; exact hT⟩
    exact isRoot_rootAux_of_bounded _ z hb
  have hInv' : InvP (aset p v w) := ⟨hnd', hcl', hch'⟩
  refine ⟨hkeys, hlen, hInv', fun z hz => ?_⟩
  exact rootP_eq_of_rootOfP hInv' (by rw [hkeys]; exact hz)
    (hchain z (rootP p z) (rootOfP_rootP hInv hz))

theorem setParent_isRoot_compress {p : List (α × α)} {v w : α}
    (hrv : RootOfP p v w) :
    ∀ z, isRootP (aset p v w) z ↔ isRootP p z := by
  intro z
  by_cases hzv : z = v
  · subst hzv
    have hl : isRootP (aset p z w) z ↔ w = z := by
      unfold isRootP; rw [pget_aset, if_pos rfl]
    rw [hl]
    constructor
    · intro h; rw [← h]; exact hrv.1
    · intro h; exact rootOfP_unique hrv (rootOfP_of_isRoot h)
  · unfold isRootP
    rw [pget_aset, if_neg hzv]

theorem setParent_isRoot_link {p : List (α × α)} {v w : α}
    (hvr : isRootP p v) (hne : v ≠ w) :
    (∀ z, z ≠ v → (isRootP (aset p v w) z ↔ isRootP p z)) ∧
      ¬ isRootP (aset p v w) v := by
  constructor
  · intro z hz
    unfold isRootP
    rw [pget_aset, if_neg hz]
  · unfold isRootP
    rw [pget_aset, if_pos rfl]
    exact fun h => hne h.symm

/-! #### Full path compression -/

theorem compressP_nil {p : List (α × α)} {r : α} : compressP p [] r = p := rfl

theorem compressP_cons {p : List (α × α)} {v : α} {vs : List α} {r : α} :
    compressP p (v :: vs) r = compressP (aset p v r) vs r := rfl

theorem compressP_spec :
    ∀ (vs : List α) (p : List (α × α)) (r : α), InvP p → isRootP p r →
      (∀ v ∈ vs, v ∈ akeys p ∧ RootOfP p v r) →
      akeys (compressP p vs r) = akeys p ∧
        (compressP p vs r).length = p.length ∧
        InvP (compressP p vs r) ∧
        (∀ z ∈ akeys p, rootP (compressP p vs r) z = rootP p z) ∧
        (∀ z, isRootP (compressP p vs r) z ↔ isRootP p z)
  | [], p, r, hInv, _, _ =>
      ⟨rfl, rfl, hInv, fun _ _ => rfl, fun _ => Iff.rfl⟩
  | v :: vs, p, r, hInv, hr, hvs => by
      obtain ⟨hv, hrv⟩ := hvs v (List.mem_cons_self v vs)
      have hw : r ∈ akeys p := by
        obtain ⟨_, j, hj⟩ := hrv
        rw [← hj]
        exact iterate_mem_of_closed hInv.2.1 hv j
      have step := setParent_spec hInv hv hw hr hrv (Or.inl rfl)
      obtain ⟨hkeys1, hlen1, hInv1, hroot1⟩ := step
      have hroots1 := setParent_isRoot_compress hrv
      have hr1 : isRootP (aset p v r) r := (hroots1 r).mpr hr
      have hvs1 : ∀ u ∈ vs, u ∈ akeys (aset p v r) ∧ RootOfP (aset p v r) u r := by
        intro u hu
        obtain ⟨hu1, hu2⟩ := hvs u (List.mem_cons_of_mem v hu)
        refine ⟨by rw [hkeys1]; exact hu1, ?_⟩
        have := setParent_chain hr hrv (Or.inl rfl) u r hu2
        simpa using this
      obtain ⟨k2, l2, i2, r2, s2⟩ := compressP_spec vs (aset p v r) r hInv1 hr1 hvs1
      rw [compressP_cons]
      refine ⟨k2.trans hkeys1, l2.trans hlen1, i2, fun z hz => ?_, fun z => (s2 z).trans (hroots1 z)⟩
      have hz1 : z ∈ akeys (aset p v r) := by rw [hkeys1]; exact hz
      rw [r2 z hz1, hroot1 z hz]
      by_cases h : rootP p z = r
      · rw [if_pos h, h]
      · rw [if_neg h]

theorem pget_compressP_of_not_mem :
    ∀ (vs : List α) (p : List (α × α)) (r : α) {z : α}, z ∉ vs →
      pget (compressP p vs r) z = pget p z
  | [], _, _, _, _ => rfl
  | v :: vs, p, r, z, hz => by
      rw [compressP_cons,
        pget_compressP_of_not_mem vs _ r (fun h => hz (List.mem_cons_of_mem v h)),
        pget_aset, if_neg (fun h => hz (by rw [h]; exact List.mem_cons_self v vs))]

theorem pget_compressP_of_mem :
    ∀ (vs : List α) (p : List (α × α)) (r : α) {z : α}, z ∈ vs →
      pget (compressP p vs r) z = r
  | v :: vs, p, r, z, hz => by
      by_cases h : z ∈ vs
      · rw [compressP_cons]; exact pget_compressP_of_mem vs _ r h
      · have hzv : z = v := by
          rcases List.mem_cons.mp hz with h' | h'
          · exact h'
          · exact absurd h' h
        rw [compressP_cons, pget_compressP_of_not_mem vs _ r h, pget_aset,
          if_pos hzv]

/-! #### Specification of `find` with compression -/

theorem findOp_spec {s : UF α} (hInv : Inv s) {x : α} (hx : x ∈ keys s) :
    (findOp s x).1 = rootOf s x ∧
      (findOp s x).2.rank = s.rank ∧
      keys (findOp s x).2 = keys s ∧
      size (findOp s x).2 = size s ∧
      Inv (findOp s x).2 ∧
      (∀ z ∈ keys s, rootOf (findOp s x).2 z = rootOf s z) ∧
      (∀ z, isRootP (findOp s x).2.parent z ↔ isRootP s.parent z) ∧
      (∀ v ∈ pathAux s.parent (size s) x, pget (findOp s x).2.parent v = rootOf s x) ∧
      pget (findOp s x).2.parent x = rootOf s x := by
  obtain ⟨hnd, hcl, hch⟩ := hInv
  have hb : ∃ j, j ≤ s.parent.length ∧ isRootP s.parent ((pget s.parent)^[j] x) := by
    obtain ⟨j, hj, he⟩ := rootAux_eq_iterate (p := s.parent) s.parent.length x
    exact ⟨j, hj, by rw [← he]; exact hch x hx⟩
  have hr : isRootP s.parent (rootOf s x) :=
    isRootP_rootP ⟨hnd, hcl, hch⟩ hx
  have hpath := pathAux_spec hcl s.parent.length x hx hb
  have hvs : ∀ v ∈ pathAux s.parent (size s) x,
      v ∈ akeys s.parent ∧ RootOfP s.parent v (rootOf s x) := by
    intro v hv
    exact hpath v hv
  have hcomp := compressP_spec (pathAux s.parent (size s) x) s.parent
    (rootOf s x) ⟨hnd, hcl, hch⟩ hr hvs
  obtain ⟨hkeys, hlen, hInv', hroot, hroots⟩ := hcomp
  have hptr : ∀ v ∈ pathAux s.parent (size s) x,
      pget (findOp s x).2.parent v = rootOf s x := by
    intro v hv
    exact pget_compressP_of_mem _ _ _ hv
  refine ⟨rfl, rfl, hkeys, hlen, hInv', hroot, hroots, hptr, ?_⟩
  by_cases hmem : x ∈ pathAux s.parent (size s) x
  · exact hptr x hmem
  · rw [show (findOp s x).2.parent = compressP s.parent
      (pathAux s.parent (size s) x) (rootOf s x) from rfl,
      pget_compressP_of_not_mem _ _ _ hmem]
    have hn : s.parent.length ≠ 0 := by
      intro h0
      have hx' : x ∈ akeys s.parent := hx
      rw [List.length_eq_zero] at h0
      rw [h0] at hx'
      simp [akeys] at hx'
    obtain ⟨m, hm⟩ := Nat.exists_eq_succ_of_ne_zero hn
    have hsz : size s = m + 1 := hm
    by_cases hroot0 : pget s.parent x = x
    · rw [hroot0]
      exact (rootP_of_isRoot hroot0).symm
    · exfalso
      apply hmem
      rw [hsz, show pathAux s.parent (m + 1) x =
        x :: pathAux s.parent m (pget s.parent x) by simp [pathAux, hroot0]]
      exact List.mem_cons_self x _

/-! #### Registration -/

theorem register_of_mem {s : UF α} {x : α} (hx : x ∈ keys s) :
    register s x = s := by
  unfold register
  rw [if_pos (alookup_isSome_iff.mpr hx)]

theorem mem_keys_register (s : UF α) (x : α) : x ∈ keys (register s x) := by
  unfold register
  by_cases hmem : (alookup s.parent x).isSome
  · rw [if_pos hmem]
    exact alookup_isSome_iff.mp hmem
  · rw [if_neg hmem]
    show x ∈ akeys (s.parent ++ [(x, x)])
    rw [akeys_append]
    exact List.mem_append_right _ (by simp [akeys])

theorem mem_keys_register_of_mem {s : UF α} {z : α} (x : α)
    (hz : z ∈ keys s) : z ∈ keys (register s x) := by
  unfold register
  by_cases hmem : (alookup s.parent x).isSome
  · rw [if_pos hmem]; exact hz
  · rw [if_neg hmem]
    show z ∈ akeys (s.parent ++ [(x, x)])
    rw [akeys_append]
    exact List.mem_append_left _ hz

theorem pget_register_of_mem {s : UF α} {z : α} (x : α) (hz : z ∈ keys s) :
    pget (register s x).parent z = pget s.parent z := by
  unfold register
  by_cases hmem : (alookup s.parent x).isSome
  · rw [if_pos hmem]
  · rw [if_neg hmem]
    obtain ⟨v, hv⟩ := Option.isSome_iff_exists.mp (alookup_isSome_iff.mpr hz)
    show pget (s.parent ++ [(x, x)]) z = pget s.parent z
    unfold pget
    rw [alookup_append_left hv, hv]

theorem pget_eq_on_iterate {p q : List (α × α)}
    (hag : ∀ u ∈ akeys p, pget q u = pget p u)
    (hcl : ∀ u ∈ akeys p, pget p u ∈ akeys p) {z : α} (hz : z ∈ akeys p) :
    ∀ j, (pget q)^[j] z = (pget p)^[j] z
  | 0 => rfl
  | j + 1 => by
      rw [Function.iterate_succ_apply, Function.iterate_succ_apply, hag z hz]
      exact pget_eq_on_iterate hag hcl (hcl z hz) j

theorem register_inv {s : UF α} (hInv : Inv s) (x : α) : Inv (register s x) := by
  by_cases hmem : (alookup s.parent x).isSome
  · unfold register; rw [if_pos hmem]; exact hInv
  · have hreg : (register s x).parent = s.parent ++ [(x, x)] := by
      unfold register; rw [if_neg hmem]
    obtain ⟨hnd, hcl, hch⟩ := hInv
    have hxnot : x ∉ akeys s.parent := fun h =>
      hmem (alookup_isSome_iff.mpr h)
    have hkeys : akeys (register s x).parent = akeys s.parent ++ [x] := by
      rw [hreg, akeys_append]; rfl
    have hag : ∀ u ∈ akeys s.parent,
        pget (register s x).parent u = pget s.parent u :=
      fun u hu => pget_register_of_mem x hu
    have hpx : pget (register s x).parent x = x := by
      rw [hreg]
      unfold pget
      rw [alookup_append_right (alookup_eq_none_iff.mpr hxnot)]
      simp [alookup]
    refine ⟨?_, ?_, ?_⟩
    · rw [hkeys]
      simp [List.nodup_append, hnd, List.disjoint_singleton, hxnot]
    · intro z hz
      rw [hkeys] at hz ⊢
      rcases List.mem_append.mp hz with hz' | hz'
      · rw [hag z hz']
        exact List.mem_append_left _ (hcl z hz')
      · have hzx : z = x := by simpa using hz'
        subst hzx
        rw [hpx]
        exact List.mem_append_right _ (by simp)
    · intro z hz
      rw [hkeys] at hz
      rcases List.mem_append.mp hz with hz' | hz'
      · obtain ⟨j, hj, he⟩ :=
          rootAux_eq_iterate (p := s.parent) s.parent.length z
        have hroot : isRootP s.parent ((pget s.parent)^[j] z) := by
          rw [← he]; exact hch z hz'
        have hmemit : (pget s.parent)^[j] z ∈ akeys s.parent :=
          iterate_mem_of_closed hcl hz' j
        have he2 : (pget (register s x).parent)^[j] z =
            (pget s.parent)^[j] z :=
          pget_eq_on_iterate hag hcl hz' j
        have hroot' : isRootP (register s x).parent ((pget (register s x).parent)^[j] z) := by
          unfold isRootP
          rw [he2, hag _ hmemit]
          exact hroot
        have hlen : s.parent.length ≤ (register s x).parent.length := by
          rw [hreg]; simp
        exact isRoot_rootAux_of_bounded _ z ⟨j, hj.trans hlen, hroot'⟩
      · have hzx : z = x := by simpa using hz'
        subst hzx
        exact isRoot_rootAux_of_bounded _ z ⟨0, Nat.zero_le _, hpx⟩

theorem rootOf_register_of_mem {s : UF α} (hInv : Inv s) {z : α} (x : α)
    (hz : z ∈ keys s) : rootOf (register s x) z = rootOf s z := by
  have hag : ∀ u ∈ akeys s.parent,
      pget (register s x).parent u = pget s.parent u :=
    fun u hu => pget_register_of_mem x hu
  obtain ⟨hroot, j, hj⟩ := rootOfP_rootP hInv hz
  have he2 : (pget (register s x).parent)^[j] z = (pget s.parent)^[j] z :=
    pget_eq_on_iterate hag hInv.2.1 hz j
  have hmem : rootP s.parent z ∈ akeys s.parent := rootP_mem hInv hz
  have hroot' : isRootP (register s x).parent (rootP s.parent z) := by
    unfold isRootP
    rw [hag _ hmem]
    exact hroot
  exact rootP_eq_of_rootOfP (register_inv hInv x)
    (mem_keys_register_of_mem x hz) ⟨hroot', j, by rw [he2]; exact hj⟩

/-! #### Root attachment -/

theorem linkRoots_self {s2 : UF α} {r : α} : linkRoots s2 r r = (false, s2) := by
  simp [linkRoots]

theorem linkRoots_spec {s2 : UF α} (hI : Inv s2) {rx ry : α}
    (hrx : isRootP s2.parent rx) (hry : isRootP s2.parent ry)
    (hxm : rx ∈ keys s2) (hym : ry ∈ keys s2) (hne : rx ≠ ry) :
    (linkRoots s2 rx ry).1 = true ∧
      keys (linkRoots s2 rx ry).2 = keys s2 ∧
      size (linkRoots s2 rx ry).2 = size s2 ∧
      Inv (linkRoots s2 rx ry).2 ∧
      (∀ z ∈ keys s2, rootOf (linkRoots s2 rx ry).2 z =
        if rootOf s2 z = (if rankD s2 rx < rankD s2 ry then rx else ry)
        then (if rankD s2 rx < rankD s2 ry then ry else rx)
        else rootOf s2 z) ∧
      (rankD s2 rx = rankD s2 ry →
        (linkRoots s2 rx ry).2.rank = aset s2.rank rx (rankD s2 rx + 1)) ∧
      (rankD s2 rx ≠ rankD s2 ry →
        (linkRoots s2 rx ry).2.rank = s2.rank) := by
  rcases Nat.lt_trichotomy (rankD s2 rx) (rankD s2 ry) with hlt | heq | hgt
  · -- attach rx under ry
    have hval : linkRoots s2 rx ry = (true, setParent s2 rx ry) := by
      unfold linkRoots
      rw [if_neg hne, if_pos hlt]
    have hspec := setParent_spec (p := s2.parent) hI hxm hym hry
      (rootOfP_of_isRoot hrx) (Or.inr ⟨rfl, hne⟩)
    obtain ⟨hk, hl, hI', hr'⟩ := hspec
    rw [hval]
    refine ⟨rfl, hk, hl, hI', fun z hz => ?_, fun h => absurd h (Nat.ne_of_lt hlt),
      fun _ => rfl⟩
    rw [if_pos hlt, if_pos hlt]
    exact hr' z hz
  · -- tie: attach ry under rx, bump rank of rx
    have hval : linkRoots s2 rx ry =
        (true, { parent := aset s2.parent ry rx,
                 rank := aset s2.rank rx (rankD s2 rx + 1) }) := by
      unfold linkRoots
      rw [if_neg hne, if_neg (by omega), if_neg (by omega)]
    have hspec := setParent_spec (p := s2.parent) hI hym hxm hrx
      (rootOfP_of_isRoot hry) (Or.inr ⟨rfl, fun h => hne h.symm⟩)
    obtain ⟨hk, hl, hI', hr'⟩ := hspec
    rw [hval]
    have hnlt : ¬ rankD s2 rx < rankD s2 ry := by omega
    refine ⟨rfl, hk, hl, hI', fun z hz => ?_, fun _ => rfl,
      fun h => absurd heq h⟩
    rw [if_neg hnlt, if_neg hnlt]
    exact hr' z hz
  · -- attach ry under rx
    have hval : linkRoots s2 rx ry = (true, setParent s2 ry rx) := by
      unfold linkRoots
      rw [if_neg hne, if_neg (by omega), if_pos hgt]
    have hspec := setParent_spec (p := s2.parent) hI hym hxm hrx
      (rootOfP_of_isRoot hry) (Or.inr ⟨rfl, fun h => hne h.symm⟩)
    obtain ⟨hk, hl, hI', hr'⟩ := hspec
    rw [hval]
    have hnlt : ¬ rankD s2 rx < rankD s2 ry := by omega
    refine ⟨rfl, hk, hl, hI', fun z hz => ?_,
      fun h => absurd h (Nat.ne_of_gt hgt), fun _ => rfl⟩
    rw [if_neg hnlt, if_neg hnlt]
    exact hr' z hz

/-! #### Specification of `union` -/

theorem unionRoots_prelude {s : UF α} (hInv : Inv s) {x y : α}
    (hx : x ∈ keys s) (hy : y ∈ keys s) :
    (findOp s x).1 = rootOf s x ∧
      (findOp (findOp s x).2 y).1 = rootOf s y ∧
      keys (findOp (findOp s x).2 y).2 = keys s ∧
      size (findOp (findOp s x).2 y).2 = size s ∧
      Inv (findOp (findOp s x).2 y).2 ∧
      (findOp (findOp s x).2 y).2.rank = s.rank ∧
      (∀ z ∈ keys s, rootOf (findOp (findOp s x).2 y).2 z = rootOf s z) ∧
      (∀ z, isRootP (findOp (findOp s x).2 y).2.parent z ↔ isRootP s.parent z) := by
  obtain ⟨hf1, hrk1, hk1, hs1, hI1, hro1, hir1, _, _⟩ := findOp_spec hInv hx
  have hy1 : y ∈ keys (findOp s x).2 := by rw [hk1]; exact hy
  obtain ⟨hf2, hrk2, hk2, hs2, hI2, hro2, hir2, _, _⟩ := findOp_spec hI1 hy1
  refine ⟨hf1, ?_, hk2.trans hk1, hs2.trans hs1, hI2, hrk2.trans hrk1,
    fun z hz => (hro2 z (by rw [hk1]; exact hz)).trans (hro1 z hz),
    fun z => (hir2 z).trans (hir1 z)⟩
  show rootOf (findOp s x).2 y = rootOf s y
  exact hro1 y hy

theorem unionRoots_eq_spec {s : UF α} (hInv : Inv s) {x y : α}
    (hx : x ∈ keys s) (hy : y ∈ keys s) (heq : rootOf s x = rootOf s y) :
    (unionRoots s x y).1 = false ∧
      (unionRoots s x y).2.rank = s.rank ∧
      keys (unionRoots s x y).2 = keys s ∧
      size (unionRoots s x y).2 = size s ∧
      Inv (unionRoots s x y).2 ∧
      ∀ z ∈ keys s, rootOf (unionRoots s x y).2 z = rootOf s z := by
  obtain ⟨hf1, hf2, hk, hs, hI, hrk, hro, _⟩ := unionRoots_prelude hInv hx hy
  have hval : unionRoots s x y = (false, (findOp (findOp s x).2 y).2) := by
    unfold unionRoots
    rw [show (findOp s x).1 = (findOp (findOp s x).2 y).1 by
      rw [hf1, hf2]; exact heq]
    exact linkRoots_self
  rw [hval]
  exact ⟨rfl, hrk, hk, hs, hI, hro⟩

theorem unionRoots_ne_spec {s : UF α} (hInv : Inv s) {x y : α}
    (hx : x ∈ keys s) (hy : y ∈ keys s) (hne : rootOf s x ≠ rootOf s y) :
    (unionRoots s x y).1 = true ∧
      keys (unionRoots s x y).2 = keys s ∧
      size (unionRoots s x y).2 = size s ∧
      Inv (unionRoots s x y).2 ∧
      (∀ z ∈ keys s, rootOf (unionRoots s x y).2 z =
        if rootOf s z = (if rankD s (rootOf s x) < rankD s (rootOf s y)
            then rootOf s x else rootOf s y)
        then (if rankD s (rootOf s x) < rankD s (rootOf s y)
            then rootOf s y else rootOf s x)
        else rootOf s z) ∧
      (rankD s (rootOf s x) = rankD s (rootOf s y) →
        (unionRoots s x y).2.rank =
          aset s.rank (rootOf s x) (rankD s (rootOf s x) + 1)) ∧
      (rankD s (rootOf s x) ≠ rankD s (rootOf s y) →
        (unionRoots s x y).2.rank = s.rank) := by
  obtain ⟨hf1, hf2, hk, hs, hI, hrk, hro, hir⟩ := unionRoots_prelude hInv hx hy
  have hval : unionRoots s x y =
      linkRoots (findOp (findOp s x).2 y).2 (rootOf s x) (rootOf s y) := by
    unfold unionRoots
    rw [hf1, hf2]
  have hrankeq : ∀ z, rankD (findOp (findOp s x).2 y).2 z = rankD s z := by
    intro z
    unfold rankD
    rw [hrk]
  have hrx : isRootP (findOp (findOp s x).2 y).2.parent (rootOf s x) :=
    (hir (rootOf s x)).mpr (isRootP_rootP hInv hx)
  have hry : isRootP (findOp (findOp s x).2 y).2.parent (rootOf s y) :=
    (hir (rootOf s y)).mpr (isRootP_rootP hInv hy)
  have hxm : rootOf s x ∈ keys (findOp (findOp s x).2 y).2 := by
    rw [hk]; exact rootP_mem hInv hx
  have hym : rootOf s y ∈ keys (findOp (findOp s x).2 y).2 := by
    rw [hk]; exact rootP_mem hInv hy
  obtain ⟨hb, hk', hs', hI', hmap, hrkeq, hrkne⟩ :=
    linkRoots_spec hI hrx hry hxm hym hne
  rw [hval]
  refine ⟨hb, hk'.trans hk, hs'.trans hs, hI', fun z hz => ?_, ?_, ?_⟩
  · have hz2 : z ∈ keys (findOp (findOp s x).2 y).2 := by rw [hk]; exact hz
    have := hmap z hz2
    rw [hro z hz] at this
    rw [this, hrankeq, hrankeq]
  · intro h
    rw [hrkeq (by rw [hrankeq, hrankeq]; exact h), hrankeq, hrk]
  · intro h
    rw [hrkne (by rw [hrankeq, hrankeq]; exact h), hrk]

/-! #### Specification of `connected` -/

theorem mem_akeys_compressP :
    ∀ (vs : List α) (p : List (α × α)) (r : α) {z : α},
      z ∈ akeys p → z ∈ akeys (compressP p vs r)
  | [], _, _, _, hz => hz
  | v :: vs, _, r, _, hz => mem_akeys_compressP vs _ r (mem_akeys_aset hz)

theorem mem_keys_findOp {s : UF α} {z : α} (x : α) (hz : z ∈ keys s) :
    z ∈ keys (findOp s x).2 :=
  mem_akeys_compressP _ _ _ hz

theorem mem_keys_linkRoots {s2 : UF α} {z : α} (rx ry : α)
    (hz : z ∈ keys s2) : z ∈ keys (linkRoots s2 rx ry).2 := by
  unfold linkRoots
  by_cases h1 : rx = ry
  · rw [if_pos h1]; exact hz
  · rw [if_neg h1]
    by_cases h2 : rankD s2 rx < rankD s2 ry
    · rw [if_pos h2]; exact mem_akeys_aset hz
    · rw [if_neg h2]
      by_cases h3 : rankD s2 ry < rankD s2 rx
      · rw [if_pos h3]; exact mem_akeys_aset hz
      · rw [if_neg h3]; exact mem_akeys_aset hz

theorem mem_keys_unionRoots {s : UF α} {z : α} (x y : α)
    (hz : z ∈ keys s) : z ∈ keys (unionRoots s x y).2 :=
  mem_keys_linkRoots _ _ (mem_keys_findOp _ (mem_keys_findOp _ hz))

theorem mem_keys_connectedRoots {s : UF α} {z : α} (x y : α)
    (hz : z ∈ keys s) : z ∈ keys (connectedRoots s x y).2 :=
  mem_keys_findOp _ (mem_keys_findOp _ hz)

theorem empty_inv : Inv (⟨[], []⟩ : UF α) :=
  ⟨List.nodup_nil, fun x hx => by simp [akeys] at hx,
    fun x hx => by simp [akeys] at hx⟩

theorem no_nontrivial_cycle {p : List (α × α)} (hInv : InvP p)
    {x : α} (hx : x ∈ akeys p) :
    ∀ j, 0 < j → (pget p)^[j] x = x → pget p x = x := by
  intro j hj hcyc
  obtain ⟨d, _, he⟩ := rootAux_eq_iterate (p := p) p.length x
  have hroot : isRootP p ((pget p)^[d] x) := by
    rw [← he]; exact hInv.2.2 x hx
  have hmul : ∀ k, (pget p)^[k * j] x = x := by
    intro k
    induction k with
    | zero => rw [Nat.zero_mul]; rfl
    | succ k ih =>
        rw [Nat.succ_mul, Function.iterate_add_apply, hcyc, ih]
  have hle : d ≤ d * j := Nat.le_mul_of_pos_right d hj
  have h1 : (pget p)^[d * j] x = (pget p)^[d * j - d] ((pget p)^[d] x) := by
    rw [← Function.iterate_add_apply, Nat.sub_add_cancel hle]
  have h2 : (pget p)^[d * j - d] ((pget p)^[d] x) = (pget p)^[d] x :=
    isRootP_iterate hroot _
  have hxr : x = (pget p)^[d] x := by
    have hd := hmul d
    rw [h1, h2] at hd
    exact hd.symm
  have hfin : isRootP p x := by rw [hxr]; exact hroot
  exact hfin

theorem connectedRoots_spec {s : UF α} (hInv : Inv s) {x y : α}
    (hx : x ∈ keys s) (hy : y ∈ keys s) :
    (connectedRoots s x y).1 = decide (rootOf s x = rootOf s y) ∧
      keys (connectedRoots s x y).2 = keys s ∧
      Inv (connectedRoots s x y).2 ∧
      (∀ z ∈ keys s, rootOf (connectedRoots s x y).2 z = rootOf s z) ∧
      (connectedRoots s x y).2.rank = s.rank := by
  obtain ⟨hf1, hf2, hk, hs, hI, hrk, hro, _⟩ := unionRoots_prelude hInv hx hy
  have hval1 : (connectedRoots s x y).1 =
      decide ((findOp s x).1 = (findOp (findOp s x).2 y).1) := rfl
  have hval2 : (connectedRoots s x y).2 = (findOp (findOp s x).2 y).2 := rfl
  refine ⟨?_, by rw [hval2]; exact hk, by rw [hval2]; exact hI,
    fun z hz => by rw [hval2]; exact hro z hz, by rw [hval2]; exact hrk⟩
  rw [hval1]
  exact decide_eq_decide.mpr (by rw [hf1, hf2])

end UF

/-! ### Reduction of the variant operations to the shared core, and
preservation of the structural invariant by every public operation -/

section Variants

variable {α : Type} [DecidableEq α]

theorem UnionFind.find_of_mem {s : UF α} {x : α} (hx : x ∈ UF.keys s) :
    UnionFind.find s x = (some (UF.findOp s x).1, (UF.findOp s x).2) := by
  unfold UnionFind.find
  rw [if_pos hx]

theorem UnionFind.find_of_not_mem {s : UF α} {x : α} (hx : x ∉ UF.keys s) :
    UnionFind.find s x = (none, s) := by
  unfold UnionFind.find
  rw [if_neg hx]

theorem UnionFind.union_of_mem {s : UF α} {x y : α} (hx : x ∈ UF.keys s)
    (hy : y ∈ UF.keys s) :
    UnionFind.union s x y =
      (some (UF.unionRoots s x y).1, (UF.unionRoots s x y).2) := by
  unfold UnionFind.union
  rw [if_pos ⟨hx, hy⟩]

theorem UnionFind.union_of_not_mem {s : UF α} {x y : α}
    (h : ¬ (x ∈ UF.keys s ∧ y ∈ UF.keys s)) :
    UnionFind.union s x y = (none, s) := by
  unfold UnionFind.union
  rw [if_neg h]

theorem UnionFind.connected_of_mem {s : UF α} {x y : α} (hx : x ∈ UF.keys s)
    (hy : y ∈ UF.keys s) :
    UnionFind.connected s x y =
      (some (UF.connectedRoots s x y).1, (UF.connectedRoots s x y).2) := by
  unfold UnionFind.connected
  rw [if_pos ⟨hx, hy⟩]

theorem UnionFind.connected_of_not_mem {s : UF α} {x y : α}
    (h : ¬ (x ∈ UF.keys s ∧ y ∈ UF.keys s)) :
    UnionFind.connected s x y = (none, s) := by
  unfold UnionFind.connected
  rw [if_neg h]

theorem DynamicUnionFind.dynFind_of_mem {s : UF α} {x : α}
    (hx : x ∈ UF.keys s) : DynamicUnionFind.find s x = UF.findOp s x := by
  unfold DynamicUnionFind.find
  rw [UF.register_of_mem hx]

theorem DynamicUnionFind.dynUnion_of_mem {s : UF α} {x y : α}
    (hx : x ∈ UF.keys s) (hy : y ∈ UF.keys s) :
    DynamicUnionFind.union s x y = UF.unionRoots s x y := by
  unfold DynamicUnionFind.union
  rw [UF.register_of_mem hx, UF.register_of_mem hy]

theorem DynamicUnionFind.dynConnected_of_mem {s : UF α} {x y : α}
    (hx : x ∈ UF.keys s) (hy : y ∈ UF.keys s) :
    DynamicUnionFind.connected s x y = UF.connectedRoots s x y := by
  unfold DynamicUnionFind.connected
  rw [UF.register_of_mem hx, UF.register_of_mem hy]

theorem UnionFind.find_inv {s : UF α} (hInv : UF.Inv s) (x : α) :
    UF.Inv (UnionFind.find s x).2 := by
  by_cases hx : x ∈ UF.keys s
  · rw [UnionFind.find_of_mem hx]
    exact (UF.findOp_spec hInv hx).2.2.2.2.1
  · rw [UnionFind.find_of_not_mem hx]
    exact hInv

theorem UnionFind.union_inv {s : UF α} (hInv : UF.Inv s) (x y : α) :
    UF.Inv (UnionFind.union s x y).2 := by
  by_cases h : x ∈ UF.keys s ∧ y ∈ UF.keys s
  · rw [UnionFind.union_of_mem h.1 h.2]
    by_cases heq : UF.rootOf s x = UF.rootOf s y
    · exact (UF.unionRoots_eq_spec hInv h.1 h.2 heq).2.2.2.2.1
    · exact (UF.unionRoots_ne_spec hInv h.1 h.2 heq).2.2.2.1
  · rw [UnionFind.union_of_not_mem h]
    exact hInv

theorem UnionFind.connected_inv {s : UF α} (hInv : UF.Inv s) (x y : α) :
    UF.Inv (UnionFind.connected s x y).2 := by
  by_cases h : x ∈ UF.keys s ∧ y ∈ UF.keys s
  · rw [UnionFind.connected_of_mem h.1 h.2]
    exact (UF.connectedRoots_spec hInv h.1 h.2).2.2.1
  · rw [UnionFind.connected_of_not_mem h]
    exact hInv

theorem DynamicUnionFind.dynFind_inv {s : UF α} (hInv : UF.Inv s) (x : α) :
    UF.Inv (DynamicUnionFind.find s x).2 := by
  unfold DynamicUnionFind.find
  exact (UF.findOp_spec (UF.register_inv hInv x)
    (UF.mem_keys_register s x)).2.2.2.2.1

theorem DynamicUnionFind.dynUnion_inv {s : UF α} (hInv : UF.Inv s) (x y : α) :
    UF.Inv (DynamicUnionFind.union s x y).2 := by
  unfold DynamicUnionFind.union
  have hI1 : UF.Inv (UF.register (UF.register s x) y) :=
    UF.register_inv (UF.register_inv hInv x) y
  have hx1 : x ∈ UF.keys (UF.register (UF.register s x) y) :=
    UF.mem_keys_register_of_mem y (UF.mem_keys_register s x)
  have hy1 : y ∈ UF.keys (UF.register (UF.register s x) y) :=
    UF.mem_keys_register (UF.register s x) y
  by_cases heq : UF.rootOf (UF.register (UF.register s x) y) x =
      UF.rootOf (UF.register (UF.register s x) y) y
  · exact (UF.unionRoots_eq_spec hI1 hx1 hy1 heq).2.2.2.2.1
  · exact (UF.unionRoots_ne_spec hI1 hx1 hy1 heq).2.2.2.1

theorem DynamicUnionFind.dynConnected_inv {s : UF α} (hInv : UF.Inv s) (x y : α) :
    UF.Inv (DynamicUnionFind.connected s x y).2 := by
  unfold DynamicUnionFind.connected
  have hI1 : UF.Inv (UF.register (UF.register s x) y) :=
    UF.register_inv (UF.register_inv hInv x) y
  have hx1 : x ∈ UF.keys (UF.register (UF.register s x) y) :=
    UF.mem_keys_register_of_mem y (UF.mem_keys_register s x)
  have hy1 : y ∈ UF.keys (UF.register (UF.register s x) y) :=
    UF.mem_keys_register (UF.register s x) y
  exact (UF.connectedRoots_spec hI1 hx1 hy1).2.2.1

theorem UnionFind.ofData_inv (elems : List α) :
    UF.Inv (UnionFind.ofData elems) := by
  have hgen : ∀ (l : List α) (s : UF α), UF.Inv s →
      UF.Inv (l.foldl UF.register s) := by
    intro l
    induction l with
    | nil => exact fun s h => h
    | cons a l ih => exact fun s h => ih _ (UF.register_inv h a)
  exact hgen elems ⟨[], []⟩ UF.empty_inv

theorem UnionFind.ofData_parent_id (elems : List α) :
    ∀ x, alookup (UnionFind.ofData elems).parent x = none ∨
      alookup (UnionFind.ofData elems).parent x = some x := by
  have hgen : ∀ (l : List α) (s : UF α),
      (∀ x, alookup s.parent x = none ∨ alookup s.parent x = some x) →
      ∀ x, alookup (l.foldl UF.register s).parent x = none ∨
        alookup (l.foldl UF.register s).parent x = some x := by
    intro l
    induction l with
    | nil => exact fun s h => h
    | cons a l ih =>
        intro s h
        apply ih
        intro x
        unfold UF.register
        by_cases hmem : (alookup s.parent a).isSome
        · rw [if_pos hmem]; exact h x
        · rw [if_neg hmem]
          show alookup (s.parent ++ [(a, a)]) x = none ∨
            alookup (s.parent ++ [(a, a)]) x = some x
          rcases h x with hx | hx
          · rw [alookup_append_right hx]
            by_cases hxa : x = a
            · right; subst hxa; simp [alookup]
            · left; simp [alookup, hxa]
          · right; exact alookup_append_left hx
  exact hgen elems ⟨[], []⟩ (fun _ => Or.inl rfl)

theorem UnionFind.ofData_pget_id (elems : List α) (x : α) :
    UF.pget (UnionFind.ofData elems).parent x = x := by
  unfold UF.pget
  rcases UnionFind.ofData_parent_id elems x with h | h <;> rw [h] <;> rfl

theorem UnionFind.ofData_rootOf_id (elems : List α) (x : α) :
    UF.rootOf (UnionFind.ofData elems) x = x :=
  UF.rootAux_of_isRoot (UnionFind.ofData_pget_id elems x) _

theorem DynamicUnionFind.dynOfData_inv (rel : List (α × α)) :
    UF.Inv (DynamicUnionFind.ofData rel) := by
  have hgen : ∀ (l : List (α × α)) (s : UF α), UF.Inv s →
      UF.Inv (l.foldl (fun s pr => (DynamicUnionFind.union s pr.1 pr.2).2) s) := by
    intro l
    induction l with
    | nil => exact fun s h => h
    | cons a l ih => exact fun s h => ih _ (DynamicUnionFind.dynUnion_inv h a.1 a.2)
  exact hgen rel ⟨[], []⟩ UF.empty_inv

end Variants

theorem Reachable.inv {α : Type} [DecidableEq α] {s : UF α}
    (h : Reachable s) : UF.Inv s := by
  induction h with
  | staticInit elems => exact UnionFind.ofData_inv elems
  | emptyInit => exact UF.empty_inv
  | dynInit rel => exact DynamicUnionFind.dynOfData_inv rel
  | staticFind s x _ ih => exact UnionFind.find_inv ih x
  | staticUnion s x y _ ih => exact UnionFind.union_inv ih x y
  | staticConnected s x y _ ih => exact UnionFind.connected_inv ih x y
  | dynFind s x _ ih => exact DynamicUnionFind.dynFind_inv ih x
  | dynUnion s x y _ ih => exact DynamicUnionFind.dynUnion_inv ih x y
  | dynConnected s x y _ ih => exact DynamicUnionFind.dynConnected_inv ih x y
  | clearStep s _ _ => exact UF.empty_inv

/-! ### List grouping helpers for the component queries -/

section Grouping

variable {γ δ ε : Type}

theorem sum_map_add (u v : δ → Nat) :
    ∀ R : List δ, (R.map (fun r => u r + v r)).sum = (R.map u).sum + (R.map v).sum
  | [] => rfl
  | a :: R => by
      rw [List.map_cons, List.map_cons, List.map_cons, List.sum_cons,
        List.sum_cons, List.sum_cons, sum_map_add u v R]
      omega

theorem sum_map_ite_zero [DecidableEq δ] {c : δ} :
    ∀ {R : List δ}, c ∉ R → (R.map (fun r => if c = r then 1 else 0)).sum = 0
  | [], _ => rfl
  | a :: R, h => by
      rw [List.map_cons, List.sum_cons,
        if_neg (fun hca => h (by rw [hca]; exact List.mem_cons_self a R)),
        sum_map_ite_zero (fun hc => h (List.mem_cons_of_mem a hc))]

theorem sum_map_ite_one [DecidableEq δ] {c : δ} :
    ∀ {R : List δ}, R.Nodup → c ∈ R →
      (R.map (fun r => if c = r then 1 else 0)).sum = 1
  | a :: R, hnd, hc => by
      rw [List.nodup_cons] at hnd
      rw [List.map_cons, List.sum_cons]
      by_cases hca : c = a
      · rw [if_pos hca, sum_map_ite_zero (fun hmem => hnd.1 (hca ▸ hmem))]
      · have hc' : c ∈ R := by
          rcases List.mem_cons.mp hc with h | h
          · exact absurd h hca
          · exact h
        rw [if_neg hca, sum_map_ite_one hnd.2 hc']

theorem filter_ext {p q : δ → Bool} :
    ∀ {l : List δ}, (∀ a ∈ l, p a = q a) → l.filter p = l.filter q
  | [], _ => rfl
  | a :: l, h => by
      have htail := filter_ext (fun b hb => h b (List.mem_cons_of_mem a hb))
      rw [List.filter_cons, List.filter_cons, h a (List.mem_cons_self a l), htail]

theorem filter_eq_nil_of_forall {p : δ → Bool} :
    ∀ {l : List δ}, (∀ a ∈ l, p a = false) → l.filter p = []
  | [], _ => rfl
  | a :: l, h => by
      rw [List.filter_cons, h a (List.mem_cons_self a l)]
      exact filter_eq_nil_of_forall (fun b hb => h b (List.mem_cons_of_mem a hb))

theorem filter_eq_singleton_of_nodup [DecidableEq δ] :
    ∀ {R : List δ}, R.Nodup → ∀ {c : δ}, c ∈ R →
      R.filter (fun r => decide (r = c)) = [c]
  | a :: R, hnd, c, hc => by
      rw [List.nodup_cons] at hnd
      by_cases hac : a = c
      · rw [List.filter_cons, if_pos (by simp [hac]), hac,
          filter_eq_nil_of_forall (fun b hb => ?_)]
        exact decide_eq_false (fun hbc => hnd.1 (hac ▸ hbc ▸ hb))
      · have hc' : c ∈ R := by
          rcases List.mem_cons.mp hc with h | h
          · exact absurd h.symm hac
          · exact h
        rw [List.filter_cons, if_neg (by simp [hac]),
          filter_eq_singleton_of_nodup hnd.2 hc']

theorem filter_map_length (g : γ → δ) (p : δ → Bool) :
    ∀ l : List γ, ((l.map g).filter p).length = (l.filter (fun a => p (g a))).length
  | [] => rfl
  | a :: l => by
      rw [List.map_cons, List.filter_cons, List.filter_cons]
      by_cases h : p (g a)
      · rw [if_pos h, if_pos h, List.length_cons, List.length_cons,
          filter_map_length g p l]
      · rw [if_neg h, if_neg h, filter_map_length g p l]

theorem groupsum [DecidableEq δ] :
    ∀ (l : List γ) (f : γ → δ),
      (((l.map f).dedup).map
        (fun r => (l.filter (fun x => decide (f x = r))).length)).sum = l.length
  | [], _ => rfl
  | a :: l, f => by
      have hsplit : ∀ R : List δ,
          (R.map (fun r => ((a :: l).filter (fun x => decide (f x = r))).length)).sum
          = (R.map (fun r => if f a = r then 1 else 0)).sum
            + (R.map (fun r => (l.filter (fun x => decide (f x = r))).length)).sum := by
        intro R
        rw [← sum_map_add]
        apply congrArg List.sum
        apply List.map_congr_left
        intro r _
        by_cases h : f a = r
        · rw [List.filter_cons, if_pos (decide_eq_true h), List.length_cons,
            if_pos h]
          omega
        · rw [List.filter_cons, if_neg (by simp [h]), if_neg h]
          omega
      by_cases hmem : f a ∈ l.map f
      · rw [List.map_cons, List.dedup_cons_of_mem hmem, hsplit,
          sum_map_ite_one (List.nodup_dedup _) (List.mem_dedup.mpr hmem),
          groupsum l f, List.length_cons]
        omega
      · rw [List.map_cons, List.dedup_cons_of_not_mem hmem, List.map_cons,
          List.sum_cons]
        have hhead : ((a :: l).filter (fun x => decide (f x = f a))).length = 1 := by
          rw [List.filter_cons, if_pos (decide_eq_true rfl),
            filter_eq_nil_of_forall (fun b hb => decide_eq_false
              (fun hfb => hmem (by rw [← hfb]; exact List.mem_map_of_mem f hb)))]
          rfl
        have htail : ((l.map f).dedup).map
            (fun r => ((a :: l).filter (fun x => decide (f x = r))).length)
            = ((l.map f).dedup).map
              (fun r => (l.filter (fun x => decide (f x = r))).length) := by
          apply List.map_congr_left
          intro r hr
          have hra : ¬ f a = r := fun h =>
            hmem (h ▸ List.mem_dedup.mp hr)
          rw [List.filter_cons, if_neg (by simp [hra])]
        rw [hhead, htail, groupsum l f, List.length_cons]
        omega

end Grouping

section MergeHelpers

variable {α : Type} [DecidableEq α]

theorem UF.unionRoots_connected_after {s : UF α} (hInv : UF.Inv s) {x y : α}
    (hx : x ∈ UF.keys s) (hy : y ∈ UF.keys s)
    (hne : UF.rootOf s x ≠ UF.rootOf s y) :
    UF.rootOf (UF.unionRoots s x y).2 x = UF.rootOf (UF.unionRoots s x y).2 y := by
  obtain ⟨_, _, _, _, hmap, _, _⟩ := UF.unionRoots_ne_spec hInv hx hy hne
  have hxw := hmap x hx
  have hyw := hmap y hy
  by_cases hlt : UF.rankD s (UF.rootOf s x) < UF.rankD s (UF.rootOf s y)
  · rw [if_pos hlt, if_pos hlt, if_pos rfl] at hxw
    rw [if_pos hlt, if_pos hlt, if_neg (fun h => hne h.symm)] at hyw
    rw [hxw, hyw]
  · rw [if_neg hlt, if_neg hlt, if_neg hne] at hxw
    rw [if_neg hlt, if_neg hlt, if_pos rfl] at hyw
    rw [hxw, hyw]

theorem UF.rankD_congr {s t : UF α} (h : s.rank = t.rank) (z : α) :
    UF.rankD s z = UF.rankD t z := by
  unfold UF.rankD
  rw [h]

end MergeHelpers

/-! ### The claims -/

/-- Claim C1: for a static `UnionFind`, every `find`, `union` or
`connected` call referencing an element absent from the registered
collection fails with the lookup error (modelled as `none`) and returns
the state completely unchanged — parent and rank untouched. -/
theorem claim_C1_static_unknown_element {α : Type} [DecidableEq α]
    (s : UF α) (x : α) (hx : x ∉ UF.keys s) :
    ∀ y : α,
      UnionFind.find s x = (none, s) ∧
      UnionFind.union s x y = (none, s) ∧
      UnionFind.union s y x = (none, s) ∧
      UnionFind.connected s x y = (none, s) ∧
      UnionFind.connected s y x = (none, s) := by
  intro y
  exact ⟨UnionFind.find_of_not_mem hx,
    UnionFind.union_of_not_mem (fun h => hx h.1),
    UnionFind.union_of_not_mem (fun h => hx h.2),
    UnionFind.connected_of_not_mem (fun h => hx h.1),
    UnionFind.connected_of_not_mem (fun h => hx h.2)⟩

/-- Witness for C1: the spec's scenario — a static set over `a..g`,
`union("a","x")` with `"x"` never registered errors out with the state
unmodified. -/
theorem claim_C1_witness :
    UnionFind.union (UnionFind.ofData ["a", "b", "c", "d", "e", "f", "g"]) "a" "x" =
      (none, UnionFind.ofData ["a", "b", "c", "d", "e", "f", "g"]) ∧
    UnionFind.find (UnionFind.ofData ["a", "b", "c", "d", "e", "f", "g"]) "x" =
      (none, UnionFind.ofData ["a", "b", "c", "d", "e", "f", "g"]) := by
  have h := claim_C1_static_unknown_element
    (UnionFind.ofData ["a", "b", "c", "d", "e", "f", "g"]) "x" (by decide) "a"
  exact ⟨h.2.2.1, h.1⟩

/-- Claim C2: the dynamic variant never fails on an unseen element —
`find`, `union` and `connected` are total and register their arguments
first; from the empty structure, `union("x","y")` returns `true`,
afterwards `connected("x","y")` is `true` and the length is 2. -/
theorem claim_C2_dynamic_auto_register :
    (∀ (β : Type) [DecidableEq β] (s : UF β) (x y : β),
        x ∈ UF.keys (DynamicUnionFind.find s x).2 ∧
        x ∈ UF.keys (DynamicUnionFind.union s x y).2 ∧
        y ∈ UF.keys (DynamicUnionFind.union s x y).2 ∧
        x ∈ UF.keys (DynamicUnionFind.connected s x y).2 ∧
        y ∈ UF.keys (DynamicUnionFind.connected s x y).2) ∧
    (DynamicUnionFind.union (⟨[], []⟩ : UF String) "x" "y").1 = true ∧
    (DynamicUnionFind.connected
      (DynamicUnionFind.union (⟨[], []⟩ : UF String) "x" "y").2 "x" "y").1 = true ∧
    UF.size (DynamicUnionFind.union (⟨[], []⟩ : UF String) "x" "y").2 = 2 := by
  refine ⟨?_, by decide, by decide, by decide⟩
  intro β _ s x y
  exact ⟨UF.mem_keys_findOp x (UF.mem_keys_register s x),
    UF.mem_keys_unionRoots x y
      (UF.mem_keys_register_of_mem y (UF.mem_keys_register s x)),
    UF.mem_keys_unionRoots x y (UF.mem_keys_register (UF.register s x) y),
    UF.mem_keys_connectedRoots x y
      (UF.mem_keys_register_of_mem y (UF.mem_keys_register s x)),
    UF.mem_keys_connectedRoots x y (UF.mem_keys_register (UF.register s x) y)⟩

/-- Claim C3: for both variants on registered elements, `union` returns
`false` and leaves the logical partition unchanged when the two roots
already agree (including `x == y`); otherwise it returns `true` and
afterwards `connected(x, y)` holds. -/
theorem claim_C3_union_semantics {α : Type} [DecidableEq α] (s : UF α)
    (x y : α) (hInv : UF.Inv s) (hx : x ∈ UF.keys s) (hy : y ∈ UF.keys s) :
    (UnionFind.union s x y =
        (some (UF.unionRoots s x y).1, (UF.unionRoots s x y).2) ∧
      DynamicUnionFind.union s x y = UF.unionRoots s x y) ∧
    (UF.rootOf s x = UF.rootOf s y →
      (UF.unionRoots s x y).1 = false ∧
      (UF.unionRoots s x y).2.rank = s.rank ∧
      ∀ z ∈ UF.keys s, UF.rootOf (UF.unionRoots s x y).2 z = UF.rootOf s z) ∧
    (UF.rootOf s x ≠ UF.rootOf s y →
      (UF.unionRoots s x y).1 = true ∧
      (UF.connectedRoots (UF.unionRoots s x y).2 x y).1 = true ∧
      (UnionFind.connected (UF.unionRoots s x y).2 x y).1 = some true ∧
      (DynamicUnionFind.connected (UF.unionRoots s x y).2 x y).1 = true) := by
  refine ⟨⟨UnionFind.union_of_mem hx hy, DynamicUnionFind.dynUnion_of_mem hx hy⟩,
    fun heq => ?_, fun hne => ?_⟩
  · obtain ⟨hb, hrk, _, _, _, hro⟩ := UF.unionRoots_eq_spec hInv hx hy heq
    exact ⟨hb, hrk, hro⟩
  · obtain ⟨hb, hk, _, hI', _, _, _⟩ := UF.unionRoots_ne_spec hInv hx hy hne
    have hx' : x ∈ UF.keys (UF.unionRoots s x y).2 := by rw [hk]; exact hx
    have hy' : y ∈ UF.keys (UF.unionRoots s x y).2 := by rw [hk]; exact hy
    have hconn := UF.unionRoots_connected_after hInv hx hy hne
    obtain ⟨hc1, _, _, _, _⟩ := UF.connectedRoots_spec hI' hx' hy'
    have hctrue : (UF.connectedRoots (UF.unionRoots s x y).2 x y).1 = true := by
      rw [hc1]
      exact decide_eq_true hconn
    refine ⟨hb, hctrue, ?_, ?_⟩
    · rw [UnionFind.connected_of_mem hx' hy']
      rw [show (some (UF.connectedRoots (UF.unionRoots s x y).2 x y).1,
        (UF.connectedRoots (UF.unionRoots s x y).2 x y).2).1 =
        some (UF.connectedRoots (UF.unionRoots s x y).2 x y).1 from rfl, hctrue]
    · rw [DynamicUnionFind.dynConnected_of_mem hx' hy', hctrue]

/-- Witness for C3: on the fresh static set over `0..3`, `union 0 1`
merges and returns `true` with `connected 0 1` holding afterwards, while
a repeated `union 0 1` and the self-union `union 0 0` return `false`. -/
theorem claim_C3_witness :
    (UF.unionRoots (UnionFind.ofData [0, 1, 2, 3]) 0 1).1 = true ∧
    (UF.connectedRoots
      (UF.unionRoots (UnionFind.ofData [0, 1, 2, 3]) 0 1).2 0 1).1 = true ∧
    (UF.unionRoots (UnionFind.ofData [0, 1, 2, 3]) 0 0).1 = false := by
  have hne := (claim_C3_union_semantics (UnionFind.ofData [0, 1, 2, 3]) 0 1
    (by decide) (by decide) (by decide)).2.2 (by decide)
  have hself := (claim_C3_union_semantics (UnionFind.ofData [0, 1, 2, 3]) 0 0
    (by decide) (by decide) (by decide)).2.1 rfl
  exact ⟨hne.1, hne.2.1, hself.1⟩

/-- Claim C4: a union merging two distinct roots of equal rank `r` leaves
the first root surviving with rank exactly `r + 1`; with unequal ranks the
higher-rank root survives with its rank unchanged; and no element's rank
ever decreases under union. -/
theorem claim_C4_union_rank_evolution {α : Type} [DecidableEq α] (s : UF α)
    (x y : α) (hInv : UF.Inv s) (hx : x ∈ UF.keys s) (hy : y ∈ UF.keys s) :
    (UF.rootOf s x ≠ UF.rootOf s y →
      (UF.rankD s (UF.rootOf s x) = UF.rankD s (UF.rootOf s y) →
        UF.rootOf (UF.unionRoots s x y).2 x = UF.rootOf s x ∧
        UF.rankD (UF.unionRoots s x y).2 (UF.rootOf s x) =
          UF.rankD s (UF.rootOf s x) + 1 ∧
        ∀ z, z ≠ UF.rootOf s x →
          UF.rankD (UF.unionRoots s x y).2 z = UF.rankD s z) ∧
      (UF.rankD s (UF.rootOf s y) < UF.rankD s (UF.rootOf s x) →
        UF.rootOf (UF.unionRoots s x y).2 x = UF.rootOf s x ∧
        (UF.unionRoots s x y).2.rank = s.rank) ∧
      (UF.rankD s (UF.rootOf s x) < UF.rankD s (UF.rootOf s y) →
        UF.rootOf (UF.unionRoots s x y).2 x = UF.rootOf s y ∧
        (UF.unionRoots s x y).2.rank = s.rank)) ∧
    (∀ z, UF.rankD s z ≤ UF.rankD (UF.unionRoots s x y).2 z) := by
  by_cases hne : UF.rootOf s x = UF.rootOf s y
  · obtain ⟨_, hrk, _, _, _, _⟩ := UF.unionRoots_eq_spec hInv hx hy hne
    exact ⟨fun h => absurd hne h, fun z =>
      Nat.le_of_eq (UF.rankD_congr hrk.symm z)⟩
  · obtain ⟨_, _, _, _, hmap, hrkeq, hrkne⟩ :=
      UF.unionRoots_ne_spec hInv hx hy hne
    have hxw := hmap x hx
    refine ⟨fun _ => ⟨fun heq => ?_, fun hgt => ?_, fun hlt => ?_⟩, ?_⟩
    · have hnlt : ¬ UF.rankD s (UF.rootOf s x) < UF.rankD s (UF.rootOf s y) := by
        omega
      rw [if_neg hnlt, if_neg hnlt, if_neg hne] at hxw
      have hrk := hrkeq heq
      refine ⟨hxw, ?_, ?_⟩
      · unfold UF.rankD
        rw [hrk, alookup_aset_self]
        rfl
      · intro z hz
        unfold UF.rankD
        rw [hrk, alookup_aset_of_ne hz]
    · have hnlt : ¬ UF.rankD s (UF.rootOf s x) < UF.rankD s (UF.rootOf s y) := by
        omega
      rw [if_neg hnlt, if_neg hnlt, if_neg hne] at hxw
      exact ⟨hxw, hrkne (by omega)⟩
    · rw [if_pos hlt, if_pos hlt, if_pos rfl] at hxw
      exact ⟨hxw, hrkne (by omega)⟩
    · intro z
      by_cases heq : UF.rankD s (UF.rootOf s x) = UF.rankD s (UF.rootOf s y)
      · have hrk := hrkeq heq
        by_cases hz : z = UF.rootOf s x
        · have hkey : UF.rankD (UF.unionRoots s x y).2 z = UF.rankD s z + 1 := by
            unfold UF.rankD
            rw [hrk, hz, alookup_aset_self]
            rfl
          omega
        · have hkey : UF.rankD (UF.unionRoots s x y).2 z = UF.rankD s z := by
            unfold UF.rankD
            rw [hrk, alookup_aset_of_ne hz]
          omega
      · exact Nat.le_of_eq (UF.rankD_congr (hrkne heq).symm z)

/-- Witness for C4: after `union 0 1` and `union 2 3` on the static set
over `0..3` both roots have rank 1; the tie-merging `union 0 2` keeps
root 0 and bumps its rank to exactly 2. -/
theorem claim_C4_witness :
    UF.rootOf (UF.unionRoots (UF.unionRoots (UF.unionRoots
        (UnionFind.ofData [0, 1, 2, 3]) 0 1).2 2 3).2 0 2).2 0 = 0 ∧
    UF.rankD (UF.unionRoots (UF.unionRoots (UF.unionRoots
        (UnionFind.ofData [0, 1, 2, 3]) 0 1).2 2 3).2 0 2).2 0 = 2 := by
  have h := (claim_C4_union_rank_evolution
    (UF.unionRoots (UF.unionRoots (UnionFind.ofData [0, 1, 2, 3]) 0 1).2 2 3).2
    0 2 (by decide) (by decide) (by decide)).1 (by decide)
  obtain ⟨hroot, hrank, _⟩ := h.1 (by decide)
  have e1 : UF.rootOf
      (UF.unionRoots (UF.unionRoots (UnionFind.ofData [0, 1, 2, 3]) 0 1).2 2 3).2 0 = 0 := by
    decide
  rw [e1] at hroot hrank
  have e2 : UF.rankD
      (UF.unionRoots (UF.unionRoots (UnionFind.ofData [0, 1, 2, 3]) 0 1).2 2 3).2 0 = 1 := by
    decide
  rw [e2] at hrank
  exact ⟨hroot, by omega⟩

/-- Claim C5: `find` compresses the whole traversal path — every visited
node's parent pointer becomes the returned root — while the rank map, the
identity of every root and the logical partition are unchanged; both
variants' `find` reduce to this shared operation on registered input. -/
theorem claim_C5_find_path_compression {α : Type} [DecidableEq α]
    (s : UF α) (x : α) (hInv : UF.Inv s) (hx : x ∈ UF.keys s) :
    UnionFind.find s x = (some (UF.findOp s x).1, (UF.findOp s x).2) ∧
    DynamicUnionFind.find s x = UF.findOp s x ∧
    (UF.findOp s x).1 = UF.rootOf s x ∧
    (∀ v ∈ UF.pathAux s.parent (UF.size s) x,
        UF.pget (UF.findOp s x).2.parent v = UF.rootOf s x) ∧
    UF.pget (UF.findOp s x).2.parent x = UF.rootOf s x ∧
    (UF.findOp s x).2.rank = s.rank ∧
    (∀ z, UF.isRootP (UF.findOp s x).2.parent z ↔ UF.isRootP s.parent z) ∧
    (∀ z ∈ UF.keys s, UF.rootOf (UF.findOp s x).2 z = UF.rootOf s z) := by
  obtain ⟨hv, hrk, _, _, _, hro, hir, hptr, hptrx⟩ := UF.findOp_spec hInv hx
  exact ⟨UnionFind.find_of_mem hx, DynamicUnionFind.dynFind_of_mem hx, hv,
    hptr, hptrx, hrk, hir, hro⟩

/-- Witness for C5: in the state built by `union 0 1; union 2 3;
union 0 2` over `0..3`, node 3 sits two hops from root 0; after
`find 3` both visited nodes 3 and 2 point directly at root 0. -/
theorem claim_C5_witness :
    UF.pget (UF.findOp (UF.unionRoots (UF.unionRoots (UF.unionRoots
        (UnionFind.ofData [0, 1, 2, 3]) 0 1).2 2 3).2 0 2).2 3).2.parent 3 = 0 ∧
    UF.pget (UF.findOp (UF.unionRoots (UF.unionRoots (UF.unionRoots
        (UnionFind.ofData [0, 1, 2, 3]) 0 1).2 2 3).2 0 2).2 3).2.parent 2 = 0 := by
  have h := claim_C5_find_path_compression
    (UF.unionRoots (UF.unionRoots (UF.unionRoots
      (UnionFind.ofData [0, 1, 2, 3]) 0 1).2 2 3).2 0 2).2 3
    (by decide) (by decide)
  exact ⟨(h.2.2.2.2.1).trans (by decide),
    (h.2.2.2.1 2 (by decide)).trans (by decide)⟩

/-- Claim C6: in every state satisfying the structural invariant,
`get_components()` maps exactly the current roots to the set of elements
whose `find` resolves to that root; every registered element occurs in
exactly one component, the component sizes sum to the structure's length,
the `get_sets`/`get_set_sizes` aliases agree, and in a freshly constructed
static structure every component is the one-element set of its root. -/
theorem claim_C6_get_components {α : Type} [DecidableEq α] (s : UF α)
    (hInv : UF.Inv s) :
    (∀ r, (∃ c, (r, c) ∈ UF.get_components s) ↔
        (r ∈ UF.keys s ∧ UF.isRootP s.parent r)) ∧
    (∀ pr ∈ UF.get_components s, ∀ x,
        x ∈ pr.2 ↔ (x ∈ UF.keys s ∧ UF.rootOf s x = pr.1)) ∧
    (∀ x ∈ UF.keys s,
        ((UF.get_components s).filter (fun pr => decide (x ∈ pr.2))).length = 1) ∧
    ((UF.get_components s).map (fun pr => pr.2.length)).sum = UF.size s ∧
    UF.get_sets s = UF.get_components s ∧
    ((UF.get_component_sizes s).map Prod.snd).sum = UF.size s ∧
    UF.get_set_sizes s = UF.get_component_sizes s ∧
    (∀ (elems : List α), ∀ pr ∈ UF.get_components (UnionFind.ofData elems),
        pr.2 = [pr.1]) := by
  have hsum : ((UF.get_components s).map (fun pr => pr.2.length)).sum = UF.size s := by
    unfold UF.get_components
    rw [List.map_map]
    exact (groupsum (UF.keys s) (UF.rootOf s)).trans (List.length_map _ _)
  refine ⟨?_, ?_, ?_, hsum, rfl, ?_, rfl, ?_⟩
  · intro r
    constructor
    · rintro ⟨c, hc⟩
      obtain ⟨r', hrd, hfr⟩ := List.mem_map.mp hc
      have hr' : r' = r := congrArg Prod.fst hfr
      subst hr'
      obtain ⟨u, hu, hur⟩ := List.mem_map.mp (List.mem_dedup.mp hrd)
      rw [← hur]
      exact ⟨UF.rootP_mem hInv hu, UF.isRootP_rootP hInv hu⟩
    · rintro ⟨hrk, hrr⟩
      have hrL : r ∈ (UF.keys s).map (UF.rootOf s) :=
        List.mem_map.mpr ⟨r, hrk, UF.rootP_of_isRoot hrr⟩
      exact ⟨(UF.keys s).filter (fun x => decide (UF.rootOf s x = r)),
        List.mem_map_of_mem _ (List.mem_dedup.mpr hrL)⟩
  · intro pr hpr x
    obtain ⟨r, hrd, hfr⟩ := List.mem_map.mp hpr
    rw [← hfr]
    constructor
    · intro hmem
      obtain ⟨hk, hd⟩ := List.mem_filter.mp hmem
      exact ⟨hk, decide_eq_true_eq.mp hd⟩
    · intro ⟨hk, hr⟩
      exact List.mem_filter.mpr ⟨hk, decide_eq_true hr⟩
  · intro x hx
    unfold UF.get_components
    rw [filter_map_length]
    have hpt : ∀ r ∈ ((UF.keys s).map (UF.rootOf s)).dedup,
        decide (x ∈ (r, (UF.keys s).filter
          (fun u => decide (UF.rootOf s u = r))).2) =
        decide (r = UF.rootOf s x) := by
      intro r _
      apply decide_eq_decide.mpr
      constructor
      · intro hmem
        obtain ⟨_, hd⟩ := List.mem_filter.mp hmem
        exact (decide_eq_true_eq.mp hd).symm
      · intro h
        exact List.mem_filter.mpr ⟨hx, decide_eq_true h.symm⟩
    rw [filter_ext hpt,
      filter_eq_singleton_of_nodup (List.nodup_dedup _)
        (List.mem_dedup.mpr (List.mem_map_of_mem _ hx))]
    rfl
  · unfold UF.get_component_sizes
    rw [List.map_map]
    exact hsum
  · intro elems pr hpr
    obtain ⟨r, hrd, hfr⟩ := List.mem_map.mp hpr
    have hrek : r ∈ UF.keys (UnionFind.ofData elems) := by
      obtain ⟨u, hu, hur⟩ := List.mem_map.mp (List.mem_dedup.mp hrd)
      rw [← hur, UnionFind.ofData_rootOf_id]
      exact hu
    rw [← hfr]
    show (UF.keys (UnionFind.ofData elems)).filter
      (fun x => decide (UF.rootOf (UnionFind.ofData elems) x = r)) = [r]
    rw [filter_ext (fun x _ => by rw [UnionFind.ofData_rootOf_id])]
    exact filter_eq_singleton_of_nodup (UnionFind.ofData_inv elems).1 hrek

/-- Witness for C6: in the state after `union 0 1` over the static set
`0..3`, the component sizes sum to the length 4 and element 0 lies in
exactly one component. -/
theorem claim_C6_witness :
    ((UF.get_components (UF.unionRoots (UnionFind.ofData [0, 1, 2, 3]) 0 1).2).map
        (fun pr => pr.2.length)).sum =
      UF.size (UF.unionRoots (UnionFind.ofData [0, 1, 2, 3]) 0 1).2 ∧
    ((UF.get_components (UF.unionRoots (UnionFind.ofData [0, 1, 2, 3]) 0 1).2).filter
        (fun pr => decide (0 ∈ pr.2))).length = 1 := by
  have h := claim_C6_get_components
    (UF.unionRoots (UnionFind.ofData [0, 1, 2, 3]) 0 1).2 (by decide)
  exact ⟨h.2.2.2.1, h.2.2.1 0 (by decide)⟩

/-- Claim C7: in every reachable state of either variant, parent chains
from any registered element reach a root within `size` steps, and the
only cycles in the parent map are the trivial self-loops at roots, so
`find` terminates on every registered element. -/
theorem claim_C7_chains_terminate {α : Type} [DecidableEq α] (s : UF α)
    (hs : Reachable s) (x : α) (hx : x ∈ UF.keys s) :
    (∃ j, j ≤ UF.size s ∧
      UF.isRootP s.parent ((UF.pget s.parent)^[j] x)) ∧
    (∀ j, 0 < j → (UF.pget s.parent)^[j] x = x →
      UF.pget s.parent x = x) := by
  have hInv := hs.inv
  constructor
  · obtain ⟨j, hj, he⟩ :=
      UF.rootAux_eq_iterate (p := s.parent) s.parent.length x
    exact ⟨j, hj, by rw [← he]; exact hInv.2.2 x hx⟩
  · exact UF.no_nontrivial_cycle hInv hx

/-- Witness for C7: the state reached by `union 0 1` on an empty dynamic
structure satisfies both the bounded-chain and the no-nontrivial-cycle
property at element 1. -/
theorem claim_C7_witness :
    (∃ j, j ≤ UF.size (DynamicUnionFind.union (⟨[], []⟩ : UF Nat) 0 1).2 ∧
      UF.isRootP (DynamicUnionFind.union (⟨[], []⟩ : UF Nat) 0 1).2.parent
        ((UF.pget (DynamicUnionFind.union (⟨[], []⟩ : UF Nat) 0 1).2.parent)^[j] 1)) ∧
    (∀ j, 0 < j →
      (UF.pget (DynamicUnionFind.union (⟨[], []⟩ : UF Nat) 0 1).2.parent)^[j] 1 = 1 →
      UF.pget (DynamicUnionFind.union (⟨[], []⟩ : UF Nat) 0 1).2.parent 1 = 1) :=
  claim_C7_chains_terminate _
    (Reachable.dynUnion _ 0 1 Reachable.emptyInit) 1 (by decide)

/-- Claim C8: `ComplexGrid.__setitem__` raises `KeyError` (modelled as
`none`) not only when the key is absent but whenever the value currently
stored at the key is falsy — `0`, the empty string or `False` — so the
assignment errors out instead of updating the cell. -/
theorem claim_C8_setitem_falsy_raises (g : PyGrids.ComplexGrid)
    (k : Int × Int) (v w : PyGrids.PyVal) (hv : alookup g.data k = some v)
    (hfalsy : PyGrids.truthy v = false) :
    PyGrids.setitem g k w = none ∧
      (PyGrids.truthy (.vint 0) = false ∧
        PyGrids.truthy (.vstr "") = false ∧
        PyGrids.truthy (.vbool false) = false) := by
  refine ⟨?_, by decide⟩
  unfold PyGrids.setitem
  rw [hv]
  show (if PyGrids.truthy v = true then _ else none) = none
  rw [hfalsy]
  simp

/-- Witness for C8: a grid storing the integer `0` at the origin rejects
an assignment at that present key. -/
theorem claim_C8_witness :
    PyGrids.setitem ⟨[((0, 0), PyGrids.PyVal.vint 0)]⟩ (0, 0)
      (PyGrids.PyVal.vstr "a") = none :=
  (claim_C8_setitem_falsy_raises ⟨[((0, 0), PyGrids.PyVal.vint 0)]⟩ (0, 0)
    (PyGrids.PyVal.vint 0) (PyGrids.PyVal.vstr "a") (by decide) (by decide)).1

theorem mapM_iter2_cplx {β : Type} (f : PyGrids.PyObj → β) :
    ∀ (cs : List ((Int × Int) × String)), cs ≠ [] →
      ((cs.map (fun c => PyGrids.PyObj.cplx c.1.1 c.1.2)).mapM
        (fun k => (PyGrids.iter2 k).map (fun kv => (kv.1, f kv.2)))) = none := by
  intro cs hcs
  cases cs with
  | nil => exact absurd rfl hcs
  | cons c rest =>
      rw [List.map_cons, List.mapM_cons]
      show (Option.map _ (PyGrids.iter2 (PyGrids.PyObj.cplx c.1.1 c.1.2))).bind _ = none
      rfl

/-- Claim C9: `ComplexGrid.parse` and `ComplexGrid.parse_file` given a
non-`None` converter raise `TypeError` (modelled as `none`) on every
input containing at least one cell, because `for k, v in res` unpacks the
dict's complex keys; they succeed with a converter only when the parsed
content is empty. -/
theorem claim_C9_parse_converter_typeerror {β : Type} (grid delim : String)
    (f : PyGrids.PyObj → β) :
    (PyGrids.cellsOf grid delim ≠ [] →
      PyGrids.parse grid delim (some f) = none ∧
      PyGrids.parse_file grid delim (some f) = none) ∧
    (PyGrids.cellsOf grid delim = [] →
      PyGrids.parse grid delim (some f) = some (.inr []) ∧
      PyGrids.parse_file grid delim (some f) = some (.inr [])) := by
  constructor
  · intro hne
    have hmain : PyGrids.parse grid delim (some f) = none := by
      show (((PyGrids.cellsOf grid delim).map
          (fun c => PyGrids.PyObj.cplx c.1.1 c.1.2)).mapM
        (fun k => (PyGrids.iter2 k).map (fun kv => (kv.1, f kv.2)))).map
          Sum.inr = none
      rw [mapM_iter2_cplx f _ hne]
      rfl
    exact ⟨hmain, hmain⟩
  · intro heq
    have hmain : PyGrids.parse grid delim (some f) = some (.inr []) := by
      show (((PyGrids.cellsOf grid delim).map
          (fun c => PyGrids.PyObj.cplx c.1.1 c.1.2)).mapM
        (fun k => (PyGrids.iter2 k).map (fun kv => (kv.1, f kv.2)))).map
          Sum.inr = some (.inr [])
      rw [heq]
      rfl
    exact ⟨hmain, hmain⟩

/-- Witness for C9: the one-cell input `"ab"` makes `parse` with a
converter fail, while the empty input succeeds with an empty grid. -/
theorem claim_C9_witness :
    PyGrids.parse "ab" " " (some (fun k : PyGrids.PyObj => k)) = none ∧
    PyGrids.parse "" " " (some (fun k : PyGrids.PyObj => k)) =
      some (.inr []) := by
  have h := claim_C9_parse_converter_typeerror "ab" " "
    (fun k : PyGrids.PyObj => k)
  have h0 := claim_C9_parse_converter_typeerror "" " "
    (fun k : PyGrids.PyObj => k)
  exact ⟨(h.1 (by decide)).1, (h0.2 (by decide)).1⟩

/-- Claim C10: `Files.extract_ints` matches bare digit runs, so every
returned integer is non-negative — a minus sign is discarded and a file
containing `"-3"` contributes `3`. -/
theorem claim_C10_extract_ints_nonneg :
    (∀ (content : String) (z : Int),
        z ∈ PyFiles.extract_ints content → 0 ≤ z) ∧
    PyFiles.extract_ints "-3" = [3] := by
  constructor
  · intro content z hz
    obtain ⟨cs, _, hcz⟩ := List.mem_map.mp hz
    rw [← hcz]
    exact Int.natCast_nonneg _
  · decide

/-- Witness for C10: the value `3` extracted from `"-3"` is
non-negative. -/
theorem claim_C10_witness :
    (3 : Int) ∈ PyFiles.extract_ints "-3" ∧ (0 : Int) ≤ 3 :=
  ⟨by decide, claim_C10_extract_ints_nonneg.1 "-3" 3 (by decide)⟩

end CompUtils
